import Mathlib

/-!
A shallow embedding of the PEG engine in `lib/markup.js` of node-jiramark
(the grammar-interpreter file): the `InputView` cursor, the parse-node
algebra (`ParseWideNode` / `ParseTallNode` / `ParseShortNode` /
`ParseTerminal` / `ParseLazyNode` / `ParseError`), the parsing-expression
classes (`Terminal`, `Range`, `RegExPred`, `Sequence`, `Alternative`,
`NamedSequence`, `ZeroOrMore`, `OneOrMore`, `ZeroOrOne`, `NegLookahead`,
`PosLookahead`, `FormalsApply`, `RuleApply`), `Rule` / `Grammar`, the
regex-synthesis output, and the visitor dispatch.

JavaScript recursion is modelled with explicit fuel; a computation yields
`Res.ok` for a normal return (parse failures are ordinary `ParseError`
nodes, per the source), `Res.err` for a thrown exception, and `Res.div`
when the fuel runs out (modelling nontermination).
-/

namespace Jiramark

/-- Outcome of running a piece of the JS engine: normal return, thrown
exception, or nontermination (out of fuel). -/
inductive Res (α : Type) where
  | ok (a : α)
  | err (msg : String)
  | div
deriving Repr, DecidableEq

namespace Res

def bind : Res α → (α → Res β) → Res β
  | .ok a, f => f a
  | .err m, _ => .err m
  | .div, _ => .div

instance : Monad Res where
  pure := Res.ok
  bind := Res.bind

@[simp] theorem bind_ok (a : α) (f : α → Res β) : bind (.ok a) f = f a := rfl
@[simp] theorem bind_err (m : String) (f : α → Res β) : bind (.err m) f = .err m := rfl
@[simp] theorem bind_div (f : α → Res β) : bind (.div : Res α) f = .div := rfl

@[simp] theorem pure_eq (a : α) : (pure a : Res α) = .ok a := rfl
@[simp] theorem bind_eq (x : Res α) (f : α → Res β) : x >>= f = x.bind f := rfl
@[simp] theorem bind_eq2 (x : Res α) (f : α → Res β) : Bind.bind x f = x.bind f := rfl

end Res

/-- Character classes occurring in the engine's regexes: `Range` compiles
to the class `[lo-hi]`, and the built-in `RegExPred` rules use
`[a-zA-Z0-9]` (alnum), `[^{]` (nonlcurly) and `[^]` (any). -/
inductive CharClass where
  | crange (lo hi : Char)
  | alnum
  | notChar (c : Char)
  | anyChar
deriving Repr, DecidableEq

def CharClass.test : CharClass → Char → Bool
  | .crange lo hi, c => lo ≤ c && c ≤ hi
  | .alnum, c => (('a' ≤ c && c ≤ 'z') || ('A' ≤ c && c ≤ 'Z') || ('0' ≤ c && c ≤ '9'))
  | .notChar x, c => c != x
  | .anyChar, _ => true

/-- The semantic domain of compiled regex patterns (what a constructed
`RegExp` recognizes): literal text, character classes, concatenation,
alternation and repetition.  `+` and `?` are expressed by the standard
identities `r+ = r r*` and `r? = (r|ε)`, which also agree with the JS
engine's greedy, left-preferring order.  The engine's *synthesis* of
pattern strings (`getRegExStr`) is modelled separately, at the level of
the string's token sequence, by `Expr.synth` below, and compiled into
this domain by `RQuant.denList`. -/
inductive Regex where
  | fail
  | eps
  | cls (c : CharClass)
  | str (s : List Char)
  | cat (a b : Regex)
  | alt (a b : Regex)
  | star (r : Regex)
deriving Repr, DecidableEq

def Regex.opt (r : Regex) : Regex := .alt r .eps
def Regex.plus (r : Regex) : Regex := .cat r (.star r)

def lstartsWith : List Char → List Char → Bool
  | [], _ => true
  | _ :: _, [] => false
  | p :: ps, c :: cs => p == c && lstartsWith ps cs

/-- Backtracking regex matcher in continuation-passing style, modelling
the behaviour of an anchored JavaScript `RegExp.exec`: alternation
prefers the left branch, `star` is greedy, and a `star` iteration that
consumes nothing terminates the iteration (as in JS, which cuts empty
quantifier iterations).  The continuation receives the unconsumed
suffix; fuel bounds the recursion depth. -/
def reM : Nat → Regex → List Char → (List Char → Option Nat) → Option Nat
  | 0, _, _, _ => none
  | _ + 1, .fail, _, _ => none
  | _ + 1, .eps, s, k => k s
  | _ + 1, .cls c, s, k =>
      match s with
      | [] => none
      | ch :: rest => if c.test ch then k rest else none
  | _ + 1, .str lit, s, k =>
      if lstartsWith lit s then k (s.drop lit.length) else none
  | f + 1, .cat a b, s, k => reM f a s (fun s1 => reM f b s1 k)
  | f + 1, .alt a b, s, k =>
      match reM f a s k with
      | some n => some n
      | none => reM f b s k
  | f + 1, .star r, s, k =>
      match reM f r s (fun s1 => if s1.length < s.length then reM f (.star r) s1 k else none) with
      | some n => some n
      | none => k s

def Regex.size : Regex → Nat
  | .fail | .eps | .cls _ | .str _ => 1
  | .cat a b => a.size + b.size + 1
  | .alt a b => a.size + b.size + 1
  | .star r => r.size + 1

/-- Model of `pattern.exec(s)` for an anchored pattern: the length of the
leftmost (backtracking-order) match, or `none`.  The fuel is ample for
the small patterns the engine synthesizes. -/
def jsExec (r : Regex) (s : List Char) : Option Nat :=
  reM ((r.size + 2) * (s.length + 2) * (s.length + 2)) r s
    (fun rem => some (s.length - rem.length))

/-- Declarative language membership for the synthesized regexes. -/
inductive Matches : Regex → List Char → Prop where
  | eps : Matches .eps []
  | cls {c ch} (h : c.test ch = true) : Matches (.cls c) [ch]
  | str (s : List Char) : Matches (.str s) s
  | cat {a b p q} (ha : Matches a p) (hb : Matches b q) : Matches (.cat a b) (p ++ q)
  | altL {a b p} (h : Matches a p) : Matches (.alt a b) p
  | altR {a b p} (h : Matches b p) : Matches (.alt a b) p
  | starNil {r} : Matches (.star r) []
  | starCons {r p q} (hp : Matches r p) (hq : Matches (.star r) q) :
      Matches (.star r) (p ++ q)

end Jiramark

namespace Jiramark

/-! ### JSON string encoding (`JSON.stringify` on strings) -/

def hexDigit (n : Nat) : Char :=
  if n < 10 then Char.ofNat (48 + n) else Char.ofNat (87 + n)

/-- Escape of one character inside a JSON string literal. -/
def jsonEscChar (c : Char) : List Char :=
  if c = '"' then ['\\', '"']
  else if c = '\\' then ['\\', '\\']
  else if c = '\x08' then ['\\', 'b']
  else if c = '\x0c' then ['\\', 'f']
  else if c = '\n' then ['\\', 'n']
  else if c = '\r' then ['\\', 'r']
  else if c = '\t' then ['\\', 't']
  else if c.toNat < 32 then
    ['\\', 'u', '0', '0', hexDigit (c.toNat / 16), hexDigit (c.toNat % 16)]
  else [c]

/-- `JSON.stringify` of a string given as a character list. -/
def jsonL (s : List Char) : String :=
  ⟨'"' :: (s.flatMap jsonEscChar ++ ['"'])⟩

/-- `JSON.stringify` of a Lean `String`. -/
def jsonS (s : String) : String := jsonL s.data

/-! ### InputView -/

/-- `InputView(str, begin, end)`: a view of the source with a consumed
range; `iv_rest` is derived (`str.substring(end)`). -/
structure InputView where
  str : List Char
  vbegin : Nat
  vend : Nat
deriving Repr, DecidableEq

namespace InputView

/-- `iv_rest`: the unconsumed suffix. -/
def rest (v : InputView) : List Char := v.str.drop v.vend

def getEnd (v : InputView) : Nat := v.vend

/-- `extend(end)`: move the end forward; throws on a backwards move. -/
def extend (v : InputView) (e : Nat) : Res InputView :=
  if e < v.vend then .err ("cannot move InputView backwards!")
  else .ok ⟨v.str, v.vbegin, e⟩

/-- `range(length)`: extend the view by `length` characters. -/
def range (v : InputView) (length : Nat) : InputView :=
  ⟨v.str, v.vbegin, v.vend + length⟩

/-- `next()`: an empty view positioned at the current end. -/
def next (v : InputView) : InputView := ⟨v.str, v.vend, v.vend⟩

def hasMore (v : InputView) : Bool := v.rest.length > 0

end InputView

/-! ### Parsing expressions -/

/-- The tagged parsing-expression algebra.  `regexPred` carries the
character class of the built-in pattern (all `RegExPred` instances in
the source are the single-character patterns of the default rules). -/
inductive Expr where
  | terminal (s : List Char)
  | range (lo hi : Char)
  | regexPred (c : CharClass)
  | seq (parts : List Expr)
  | alt (choices : List Expr)
  | namedSeq (name : String) (body : Expr)
  | zeroOrMore (pred : Expr)
  | oneOrMore (pred : Expr)
  | zeroOrOne (pred : Expr)
  | negLookahead (pred : Expr)
  | posLookahead (pred : Expr)
  | formalsApply (name : String) (idx : Nat)
  | ruleApply (name : String) (args : List Expr)
deriving Repr

mutual
/-- Static shape width (`pe_width` / `getWidth()`).  The source never
initializes `pe_width` for `RegExPred` (its constructor skips
`ParseExpression.call`) and never reads it either, since `RegExPred`
only ever occurs as a whole rule body; 1 is the number of slots its
wrap-based result carries, matching the other leaf expressions. -/
def Expr.width : Expr → Nat
  | .terminal _ => 1
  | .range _ _ => 1
  | .regexPred _ => 1
  | .seq parts => Expr.widthList parts
  | .alt [] => 0
  | .alt (c :: _) => c.width
  | .namedSeq _ body => body.width
  | .zeroOrMore p => p.width
  | .oneOrMore p => p.width
  | .zeroOrOne p => p.width
  | .negLookahead _ => 0
  | .posLookahead p => p.width
  | .formalsApply _ _ => 1
  | .ruleApply _ _ => 1

def Expr.widthList : List Expr → Nat
  | [] => 0
  | p :: ps => p.width + Expr.widthList ps
end

mutual
/-- All alternatives of every ordered choice (recursively) have the
same width as the first alternative. -/
def Expr.uniformW : Expr → Bool
  | .terminal _ => true
  | .range _ _ => true
  | .regexPred _ => true
  | .seq parts => Expr.uniformWList parts
  | .alt [] => true
  | .alt (c :: cs) =>
      Expr.uniformWList (c :: cs) && cs.all (fun x => x.width == c.width)
  | .namedSeq _ body => body.uniformW
  | .zeroOrMore p => p.uniformW
  | .oneOrMore p => p.uniformW
  | .zeroOrOne p => p.uniformW
  | .negLookahead p => p.uniformW
  | .posLookahead p => p.uniformW
  | .formalsApply _ _ => true
  | .ruleApply _ args => Expr.uniformWList args

def Expr.uniformWList : List Expr → Bool
  | [] => true
  | p :: ps => p.uniformW && Expr.uniformWList ps
end

mutual
/-- `substitute(params)`: replace formal-parameter references by the
actual parameters.  Only `FormalsApply`, `RuleApply`, `Alternative`,
`Sequence`, `Range`, `Terminal` and `RegExPred` override it; the other
classes inherit the base method, which throws. -/
def Expr.substitute (params : List Expr) : Expr → Res Expr
  | .terminal s => .ok (.terminal s)
  | .range lo hi => .ok (.range lo hi)
  | .regexPred c => .ok (.regexPred c)
  | .seq parts => do
      let ps ← Expr.substituteList params parts
      .ok (.seq ps)
  | .alt choices => do
      let cs ← Expr.substituteList params choices
      .ok (.alt cs)
  | .formalsApply name idx =>
      match params.get? idx with
      | none => .err ("missing parameter for " ++ jsonS name)
      | some p => .ok p
  | .ruleApply name args => do
      let as ← Expr.substituteList params args
      .ok (.ruleApply name as)
  | .namedSeq _ _ => .err ("not yet implemented")
  | .zeroOrMore _ => .err ("not yet implemented")
  | .oneOrMore _ => .err ("not yet implemented")
  | .zeroOrOne _ => .err ("not yet implemented")
  | .negLookahead _ => .err ("not yet implemented")
  | .posLookahead _ => .err ("not yet implemented")

def Expr.substituteList (params : List Expr) : List Expr → Res (List Expr)
  | [] => .ok []
  | e :: es => do
      let e1 ← Expr.substitute params e
      let es1 ← Expr.substituteList params es
      .ok (e1 :: es1)
end

mutual
/-- An *internal*, fully-grouped regex abstraction of an expression,
used only as an intermediate step in the soundness proof: every
quantifier is applied to the whole sub-expression's regex.  This is NOT
a faithful model of `getRegExStr`, which concatenates strings and whose
quantifier suffixes bind only to the last atom of the preceding string
(see `Expr.synth` for the faithful, token-level model); the two agree
exactly on the well-quantified fragment (`Expr.wellQuant`), which is
what `synth_bridge` proves.  `ρ` assigns a regex to each rule name;
lookaheads and formal parameters yield `none` (the base method). -/
def Expr.regexOf (ρ : String → Option Regex) : Expr → Option Regex
  | .terminal s => some (.str s)
  | .range lo hi => some (.cls (.crange lo hi))
  | .regexPred c => some (.cls c)
  | .seq parts => Expr.regexOfSeq ρ parts
  | .alt choices => Expr.regexOfAlt ρ choices
  | .namedSeq _ body => body.regexOf ρ
  | .zeroOrMore p => (p.regexOf ρ).map .star
  | .oneOrMore p => (p.regexOf ρ).map .plus
  | .zeroOrOne p => (p.regexOf ρ).map .opt
  | .negLookahead _ => none
  | .posLookahead _ => none
  | .formalsApply _ _ => none
  | .ruleApply name _ => ρ name

def Expr.regexOfSeq (ρ : String → Option Regex) : List Expr → Option Regex
  | [] => some .eps
  | p :: ps => do
      let r ← p.regexOf ρ
      let rs ← Expr.regexOfSeq ρ ps
      some (.cat r rs)

def Expr.regexOfAlt (ρ : String → Option Regex) : List Expr → Option Regex
  | [] => some .eps
  | [c] => c.regexOf ρ
  | c :: c2 :: cs => do
      let r ← c.regexOf ρ
      let rs ← Expr.regexOfAlt ρ (c2 :: cs)
      some (.alt r rs)
end

end Jiramark

namespace Jiramark

/-! ### Rules and grammars -/

/-- `Rule(name, formals, desc, body)` with the regex cache
(`r_restr`/`r_repat`, both set together) modelled as `cached`. -/
structure Rule where
  rname : String
  formals : List String
  desc : String
  body : Expr
  cached : Option Regex
deriving Repr

/-- `Grammar`: rule table and default rule name.  `g_rules` is a JS
object keyed by name; later insertions override earlier ones, so the
lookup list carries the user rules before the default rules. -/
structure Grammar where
  gname : String
  grules : List (String × Rule)
  gdefault : String
deriving Repr

def Grammar.lookupRule (g : Grammar) (name : String) : Option Rule :=
  (g.grules.find? (fun p => p.1 == name)).map (·.2)

/-! ### Parse nodes -/

/-- The parse-node hierarchy.  `wide` is `ParseWideNode` (fixed arity),
`tall` is `ParseTallNode` (variable arity), `short` is `ParseShortNode`
(a `ParseTallNode` with exactly one child that `unwrapShort` sees
through), `terminal` is `ParseTerminal`, `lazyNode` is `ParseLazyNode`
(grammar, params and body expression retained for deferred expansion;
`pview` is the node's own `pt_view`, built as `oview.range(length)`),
and `error` is `ParseError` (its `pt_view` is `null`). -/
inductive ParseNode where
  | terminal (text : List Char) (view : InputView) (rname iname : Option String)
  | wide (children : List ParseNode) (view : InputView) (rname iname : Option String)
  | tall (children : List ParseNode) (view : InputView) (rname iname : Option String)
  | short (child : ParseNode) (view : InputView) (rname iname : Option String)
  | lazyNode (g : Grammar) (params : List Expr) (pred : Expr)
      (oview : InputView) (pview : InputView) (rname iname : Option String)
  | error (why : String) (cause : Option ParseNode)
deriving Repr

namespace ParseNode

/-- `failed()`: true exactly for `ParseError`. -/
def failed : ParseNode → Bool
  | .error _ _ => true
  | _ => false

/-- `pt_view` (the `null` of `ParseError` becomes `none`). -/
def viewOf : ParseNode → Option InputView
  | .terminal _ v _ _ => some v
  | .wide _ v _ _ => some v
  | .tall _ v _ _ => some v
  | .short _ v _ _ => some v
  | .lazyNode _ _ _ _ v _ _ => some v
  | .error _ _ => none

/-- `hasMore()`: `ParseError` overrides it to `false`; every other node
asks its view. -/
def hasMoreN : ParseNode → Bool
  | .error _ _ => false
  | n => match n.viewOf with
         | some v => v.hasMore
         | none => false

/-- `pt_rname`. -/
def rnameOf : ParseNode → Option String
  | .terminal _ _ r _ => r
  | .wide _ _ r _ => r
  | .tall _ _ r _ => r
  | .short _ _ r _ => r
  | .lazyNode _ _ _ _ _ r _ => r
  | .error _ _ => none

/-- `pt_iname`. -/
def inameOf : ParseNode → Option String
  | .terminal _ _ _ i => i
  | .wide _ _ _ i => i
  | .tall _ _ _ i => i
  | .short _ _ _ i => i
  | .lazyNode _ _ _ _ _ _ i => i
  | .error _ _ => none

/-- `setRuleName(name)`: throws if already named; `ParseError`
overrides it to return itself.  `name` may be `null` (as in
`ParseLazyNode._force`), hence the `Option`. -/
def setRuleName (name : Option String) : ParseNode → Res ParseNode
  | .error w c => .ok (.error w c)
  | .terminal t v r i =>
      if r.isSome then .err ("cannot set rule name twice!")
      else .ok (.terminal t v name i)
  | .wide cs v r i =>
      if r.isSome then .err ("cannot set rule name twice!")
      else .ok (.wide cs v name i)
  | .tall cs v r i =>
      if r.isSome then .err ("cannot set rule name twice!")
      else .ok (.tall cs v name i)
  | .short c v r i =>
      if r.isSome then .err ("cannot set rule name twice!")
      else .ok (.short c v name i)
  | .lazyNode g ps p ov v r i =>
      if r.isSome then .err ("cannot set rule name twice!")
      else .ok (.lazyNode g ps p ov v name i)

/-- `setInlineName(name)`: throws if already set; `ParseError`
overrides it to return itself. -/
def setInlineName (name : String) : ParseNode → Res ParseNode
  | .error w c => .ok (.error w c)
  | .terminal t v r i =>
      if i.isSome then .err ("cannot set rule inline name twice!")
      else .ok (.terminal t v r (some name))
  | .wide cs v r i =>
      if i.isSome then .err ("cannot set rule inline name twice!")
      else .ok (.wide cs v r (some name))
  | .tall cs v r i =>
      if i.isSome then .err ("cannot set rule inline name twice!")
      else .ok (.tall cs v r (some name))
  | .short c v r i =>
      if i.isSome then .err ("cannot set rule inline name twice!")
      else .ok (.short c v r (some name))
  | .lazyNode g ps p ov v r i =>
      if i.isSome then .err ("cannot set rule inline name twice!")
      else .ok (.lazyNode g ps p ov v r (some name))

/-- `explain(why)`: a no-op on every node except `ParseError`, which
wraps itself in a new error carrying the caller's `getErrorMsg()`
(passed here as the already-computed string). -/
def explain (msg : String) : ParseNode → ParseNode
  | .error w c => .error msg (some (.error w c))
  | n => n

/-- `wrap()`: box a node as a one-slot `Wide` containing a `Short`;
`ParseError` overrides it to return itself. -/
def wrap : ParseNode → ParseNode
  | .error w c => .error w c
  | .terminal t v r i => .wide [.short (.terminal t v r i) v none none] v none none
  | .wide cs v r i => .wide [.short (.wide cs v r i) v none none] v none none
  | .tall cs v r i => .wide [.short (.tall cs v r i) v none none] v none none
  | .short c v r i => .wide [.short (.short c v r i) v none none] v none none
  | .lazyNode g ps p ov v r i =>
      .wide [.short (.lazyNode g ps p ov v r i) v none none] v none none

/-- `group()`: `ParseWideNode` re-boxes each child in a `Short` at its
own view; every other node returns itself (base method). -/
def group : ParseNode → ParseNode
  | .wide cs v r i => .wide (cs.map (fun c => .short c v none none)) v r i
  | n => n

/-- `unwrapShort()`: `ParseShortNode` unwraps to its child,
recursively; every other node returns itself. -/
def unwrapShort : ParseNode → ParseNode
  | .short c _ _ _ => unwrapShort c
  | n => n

/-- `pt_children` of a `ParseMultiNode` (`Short` stores `[node]`). -/
def childrenRaw : ParseNode → Option (List ParseNode)
  | .wide cs _ _ _ => some cs
  | .tall cs _ _ _ => some cs
  | .short c _ _ _ => some [c]
  | _ => none

/-- `getTallNodes()`: defined on `ParseTallNode` (hence also `Short`);
calling it on any other node is a JS `TypeError`. -/
def getTallNodes : ParseNode → Res (List ParseNode)
  | .tall cs _ _ _ => .ok cs
  | .short c _ _ _ => .ok [c]
  | _ => .err ("TypeError: getTallNodes is not a function")

/-- `prefixWith(start, others)`: `Wide` and `Tall` prepend `others` to
their children and extend `start` to their own end (`Short` inherits
the `Tall` method and so becomes a `Tall`); a terminal throws;
`ParseError` returns itself; `ParseLazyNode` has no such method. -/
def prefixWith (start : InputView) (others : List ParseNode) :
    ParseNode → Res ParseNode
  | .wide cs v r i => do
      let v1 ← start.extend v.getEnd
      .ok (.wide (others ++ cs) v1 r i)
  | .tall cs v r i => do
      let v1 ← start.extend v.getEnd
      .ok (.tall (others ++ cs) v1 r i)
  | .short c v r i => do
      let v1 ← start.extend v.getEnd
      .ok (.tall (others ++ [c]) v1 r i)
  | .terminal _ _ _ _ => .err ("cannot add prefix to terminal node")
  | .error w c => .ok (.error w c)
  | .lazyNode _ _ _ _ _ _ _ => .err ("TypeError: prefixWith is not a function")

/-- Reading `n.pt_view` where a real view is required (a `null` view is
a JS `TypeError` at the use site). -/
def viewOfRes (n : ParseNode) : Res InputView :=
  match n.viewOf with
  | some v => .ok v
  | none => .err ("TypeError: cannot read pt_view of null")

/-- The per-slot body of `ParseMultiNode.mergeWith`: slot `i` becomes
`self.children[i].prefixWith(others[i].pt_view, others[i].getTallNodes())`. -/
def mergeSlots : List ParseNode → List ParseNode → Res (List ParseNode)
  | [], _ => .ok []
  | _ :: _, [] => .ok []
  | c :: cs, o :: os => do
      let tn ← o.getTallNodes
      let ov ← viewOfRes o
      let c1 ← c.prefixWith ov tn
      let rest ← mergeSlots cs os
      .ok (c1 :: rest)

/-- `mergeWith(start, others)` on a `ParseMultiNode`: requires equal
lengths, merges slotwise and always produces a `ParseWideNode`; a
terminal throws; `ParseError` returns itself; `ParseLazyNode` has no
such method. -/
def mergeWith (start : InputView) (others : List ParseNode) :
    ParseNode → Res ParseNode
  | .wide cs v r i => do
      if cs.length ≠ others.length then
        .err ("Cannot merge node with a different length!")
      else do
        let cs1 ← mergeSlots cs others
        let v1 ← start.extend v.getEnd
        .ok (.wide cs1 v1 r i)
  | .tall cs v r i => do
      if cs.length ≠ others.length then
        .err ("Cannot merge node with a different length!")
      else do
        let cs1 ← mergeSlots cs others
        let v1 ← start.extend v.getEnd
        .ok (.wide cs1 v1 r i)
  | .short c v r i => do
      if others.length ≠ 1 then
        .err ("Cannot merge node with a different length!")
      else do
        let cs1 ← mergeSlots [c] others
        let v1 ← start.extend v.getEnd
        .ok (.wide cs1 v1 r i)
  | .terminal _ _ _ _ => .err ("cannot merge terminal node")
  | .error w c => .ok (.error w c)
  | .lazyNode _ _ _ _ _ _ _ => .err ("TypeError: mergeWith is not a function")

end ParseNode

/-- `createEmptySlots(width, view)`: a `Wide` of `width` empty `Tall`
slots at `view`. -/
def createEmptySlots (width : Nat) (view : InputView) : ParseNode :=
  .wide (List.replicate width (.tall [] view none none)) view none none

end Jiramark


namespace Jiramark

/-! ### The matching engine

`parse fuel e g params view` executes `e.parse(grammar, params, view)`.
Fuel is consumed at every entry into `parse` and at every iteration of a
repetition loop; helpers are parameterized by the recursive parse
function `P`, and `parse (f+1)` passes them `parse f`, so one unit of
fuel guards one level of JS call nesting. -/

/-- Type of the recursive parse entry point taken by the helpers. -/
abbrev ParseFn := Expr → Grammar → List Expr → InputView → Res ParseNode

/-- Escaping of a regex metacharacter (`escapeRegExp`), used only to
print the `Range` character-class pattern. -/
def escREChar (c : Char) : List Char :=
  if c ∈ ['-', '[', ']', '\x7b', '\x7d', '(', ')', '*', '+', '?', '.', ',',
           '\\', '^', '$', '|', '#', ' ', '\t', '\n', '\r', '\x0b', '\x0c']
  then ['\\', c] else [c]

/-- The source pattern string of a built-in character class
(`rep_str` / `rng_restr`). -/
def CharClass.patStr : CharClass → String
  | .crange lo hi => ⟨'[' :: (escREChar lo ++ '-' :: escREChar hi ++ [']'])⟩
  | .alnum => "[a-zA-Z0-9]"
  | .notChar c => ⟨'[' :: '^' :: c :: [']']⟩
  | .anyChar => "[^]"

/-- `result.pt_view = view` in `PosLookahead.parse` (reached only for
non-failure results; `ParseError` is returned unchanged). -/
def ParseNode.setView (v : InputView) : ParseNode → ParseNode
  | .terminal t _ r i => .terminal t v r i
  | .wide cs _ r i => .wide cs v r i
  | .tall cs _ r i => .tall cs v r i
  | .short c _ r i => .short c v r i
  | .lazyNode g ps p ov _ r i => .lazyNode g ps p ov v r i
  | .error w c => .error w c

/-- The rest of a node's view (`[]` for `ParseError`). -/
def ParseNode.restOf (n : ParseNode) : List Char :=
  match n.viewOf with
  | some v => v.rest
  | none => []

/-- `parseAndMerge(grammar, params, expr)`: parse `expr` at the node's
end and merge the result into the node's slots.  `ParseError` absorbs;
`ParseLazyNode` has no such method. -/
def parseAndMergeW (P : ParseFn) (g : Grammar) (ps : List Expr) (e : Expr) :
    ParseNode → Res ParseNode
  | .wide cs v _ _ => do
      let res ← P e g ps v.next
      res.mergeWith v cs
  | .tall cs v _ _ => do
      let res ← P e g ps v.next
      res.mergeWith v cs
  | .short c v _ _ => do
      let res ← P e g ps v.next
      res.mergeWith v [c]
  | .terminal t v r i => do
      let res ← P e g ps v.next
      res.mergeWith v [ParseNode.terminal t v r i]
  | .error w c => .ok (.error w c)
  | .lazyNode _ _ _ _ _ _ _ => .err ("TypeError: parseAndMerge is not a function")

/-- `parseAndConcat(grammar, params, expr)`: parse `expr` at the node's
end and prefix the node's children onto the result. -/
def parseAndConcatW (P : ParseFn) (g : Grammar) (ps : List Expr) (e : Expr) :
    ParseNode → Res ParseNode
  | .wide cs v _ _ => do
      let res ← P e g ps v.next
      res.prefixWith v cs
  | .tall cs v _ _ => do
      let res ← P e g ps v.next
      res.prefixWith v cs
  | .short c v _ _ => do
      let res ← P e g ps v.next
      res.prefixWith v [c]
  | .terminal t v r i => do
      let res ← P e g ps v.next
      res.prefixWith v [ParseNode.terminal t v r i]
  | .error w c => .ok (.error w c)
  | .lazyNode _ _ _ _ _ _ _ => .err ("TypeError: parseAndConcat is not a function")

/-- The loop of `Sequence.prototype.parse`: fold `parseAndConcat` over
the parts (a `ParseError` accumulator absorbs the remaining parts). -/
def seqLoopW (P : ParseFn) (g : Grammar) (ps : List Expr) :
    List Expr → ParseNode → Res ParseNode
  | [], acc => .ok acc
  | p :: rest, acc => do
      let acc1 ← parseAndConcatW P g ps p acc
      seqLoopW P g ps rest acc1

/-- The loop of `Alternative.prototype.parse`: try the choices in order
on the same view, returning the first non-failure. -/
def altLoopW (P : ParseFn) (g : Grammar) (ps : List Expr) :
    List Expr → InputView → Res ParseNode
  | [], _ => .ok (.error ("failed alternative") none)
  | c :: cs, v => do
      let r ← P c g ps v
      if r.failed then altLoopW P g ps cs v else .ok r

/-- The do/while loop shared by `ZeroOrMore.parse` and
`OneOrMore.parse`: keep `parseAndMerge`-ing the predicate while the
result has input left and the next attempt does not fail, keeping the
last successful accumulator. -/
def zomLoopW (P : ParseFn) (g : Grammar) (ps : List Expr) (pred : Expr) :
    Nat → ParseNode → Res ParseNode
  | 0, _ => .div
  | c + 1, next =>
      let result := next
      if !result.hasMoreN then .ok result
      else
        match parseAndMergeW P g ps pred result with
        | .ok nxt => if nxt.failed then .ok result else zomLoopW P g ps pred c nxt
        | .err m => .err m
        | .div => .div

/-- `Rule.prototype.parse`: check the actual-parameter count, use the
cached regex as an accept/reject filter when present (success builds a
`ParseLazyNode` without running the body), and otherwise run the body
and tag the result with the rule name. -/
def ruleParseW (P : ParseFn) (g : Grammar) (rule : Rule) (ps : List Expr)
    (v : InputView) : Res ParseNode :=
  if ps.length ≠ rule.formals.length then
    .err ("expected " ++ toString rule.formals.length ++
      " parameters, but got " ++ toString ps.length)
  else
    match rule.cached with
    | some re =>
        match jsExec re v.rest with
        | none => .ok (.error ("expected to find " ++ rule.rname) none)
        | some L => .ok (.lazyNode g ps rule.body v (v.range L) (some rule.rname) none)
    | none => do
        let r ← P rule.body g ps v
        (r.explain ("expected to find " ++ rule.rname)).setRuleName (some rule.rname)

/-- `Grammar.prototype.apply`: look the rule up and parse at
`view.next()`. -/
def Grammar.applyW (P : ParseFn) (g : Grammar) (name : String)
    (ps : List Expr) (v : InputView) : Res ParseNode :=
  match g.lookupRule name with
  | none => .err ("unknown rule: " ++ jsonS name)
  | some rule => ruleParseW P g rule ps v.next

/-- One step of the expression dispatch (`ParseExpression.parse` of each
variant), with the recursive entry point `P` and the iteration fuel for
repetition loops passed explicitly. -/
def parseStep (P : ParseFn) (iterFuel : Nat) :
    Expr → Grammar → List Expr → InputView → Res ParseNode
  | .terminal s, _, _, v =>
      if lstartsWith s v.rest then
        .ok ((ParseNode.terminal s (v.range s.length) none none).wrap)
      else
        .ok (.error ("expected " ++ jsonL s) none)
  | .range lo hi, _, _, v =>
      match v.rest with
      | c :: _ =>
          if (CharClass.crange lo hi).test c then
            .ok ((ParseNode.terminal [c] (v.range 1) none none).wrap)
          else
            .ok (.error ("expected a character in the range " ++
              jsonL [lo] ++ ".." ++ jsonL [hi]) none)
      | [] =>
          .ok (.error ("expected a character in the range " ++
            jsonL [lo] ++ ".." ++ jsonL [hi]) none)
  | .regexPred c, _, _, v =>
      match v.rest with
      | ch :: _ =>
          if c.test ch then
            .ok ((ParseNode.terminal [ch] (v.range 1) none none).wrap)
          else
            .ok (.error ("failed to match pattern " ++ jsonS c.patStr) none)
      | [] =>
          .ok (.error ("failed to match pattern " ++ jsonS c.patStr) none)
  | .seq parts, g, ps, v => seqLoopW P g ps parts (.wide [] v none none)
  | .alt choices, g, ps, v => altLoopW P g ps choices v
  | .namedSeq nm body, g, ps, v => do
      let r ← P body g ps v
      r.setInlineName nm
  | .zeroOrMore p, g, ps, v => do
      let r ← zomLoopW P g ps p iterFuel (createEmptySlots p.width v)
      .ok ((r.explain ("expected zero or more")).group)
  | .oneOrMore p, g, ps, v => do
      let first ← parseAndMergeW P g ps p (createEmptySlots p.width v)
      let r ← zomLoopW P g ps p iterFuel first
      .ok ((r.explain ("expected one or more")).group)
  | .zeroOrOne p, g, ps, v => do
      let empty := createEmptySlots p.width v
      let next ← parseAndMergeW P g ps p empty
      let next1 := next.group
      .ok (if next1.failed then empty else next1)
  | .negLookahead p, g, ps, v => do
      let r ← P p g ps v
      .ok (if r.failed then .wide [] v none none else .error ("failed NegLookahead") none)
  | .posLookahead p, g, ps, v => do
      let r ← P p g ps v
      if r.failed then .ok (.error ("failed PosLookahead") none)
      else .ok (r.setView v)
  | .formalsApply name idx, g, ps, v =>
      match ps.get? idx with
      | none => .err ("missing parameter for " ++ jsonS name)
      | some p => do
          let r ← P p g ps v
          .ok ((r.explain ("failed to apply " ++ jsonS name ++
            "(param #" ++ toString idx ++ ")")).wrap)
  | .ruleApply name args, g, ps, v => do
      let subbed ← Expr.substituteList ps args
      let r ← Grammar.applyW P g name subbed v
      .ok ((r.explain ("failed to apply " ++ jsonS name)).wrap)

/-- The fueled parse entry point. -/
def parse : Nat → Expr → Grammar → List Expr → InputView → Res ParseNode
  | 0, _, _, _, _ => .div
  | f + 1, e, g, ps, v => parseStep (parse f) f e g ps v

/-- `Grammar.prototype.parse`: run the default rule on a fresh view and
reject a successful result that leaves input unconsumed. -/
def Grammar.parseG (f : Nat) (g : Grammar) (s : List Char) : Res ParseNode := do
  let result ← Grammar.applyW (parse f) g g.gdefault [] ⟨s, 0, 0⟩
  .ok (if result.hasMoreN then
        .error ("failed to parse remaining " ++ jsonL result.restOf) none
      else result)

end Jiramark

namespace Jiramark

/-! ### Small concrete instances used by the witnesses -/

/-- A tiny grammar: one rule, `top = "a"`, no regex cache. -/
def wG : Grammar :=
  ⟨"w", [("top", ⟨"top", [], "", .terminal ['a'], none⟩)], "top"⟩

/-- The view at the start of the two-character input `ab`. -/
def wV : InputView := ⟨['a', 'b'], 0, 0⟩

/-! ### Helper lemmas -/

/-- A node with no input left has an empty remaining text. -/
theorem restOf_eq_nil (n : ParseNode) (h : n.hasMoreN = false) : n.restOf = [] := by
  cases n <;>
    simp only [ParseNode.hasMoreN, ParseNode.restOf, ParseNode.viewOf,
      InputView.hasMore, gt_iff_lt, Nat.pos_iff_ne_zero, ne_eq,
      decide_eq_false_iff_not, not_not] at h ⊢ <;>
    simp_all [List.length_eq_zero]

/-! ### C9: ParseError is absorbing -/

/-- C9: a `ParseError` is absorbing under the node algebra: `mergeWith`,
`prefixWith`, `parseAndMerge`, `parseAndConcat`, `setRuleName`,
`setInlineName` and `wrap` all return the error unchanged even for an
arbitrary parse function `P` (so no exception is raised and no parsing
is performed), `failed()` is true on it, and `failed()` holds exactly
on `ParseError` nodes. -/
theorem c9_failure_absorbing (why : String) (cause : Option ParseNode)
    (P : ParseFn) (g : Grammar) (ps : List Expr) (e : Expr)
    (start : InputView) (others : List ParseNode)
    (nm : Option String) (inm : String) :
    (ParseNode.error why cause).mergeWith start others = .ok (.error why cause)
    ∧ (ParseNode.error why cause).prefixWith start others = .ok (.error why cause)
    ∧ parseAndMergeW P g ps e (.error why cause) = .ok (.error why cause)
    ∧ parseAndConcatW P g ps e (.error why cause) = .ok (.error why cause)
    ∧ (ParseNode.error why cause).setRuleName nm = .ok (.error why cause)
    ∧ (ParseNode.error why cause).setInlineName inm = .ok (.error why cause)
    ∧ (ParseNode.error why cause).wrap = .error why cause
    ∧ (ParseNode.error why cause).failed = true
    ∧ (∀ n : ParseNode, n.failed = true ↔ ∃ w c, n = .error w c) := by
  refine ⟨rfl, rfl, rfl, rfl, rfl, rfl, rfl, rfl, ?_⟩
  intro n
  cases n <;> simp [ParseNode.failed]

/-! ### C2: ordered choice -/

/-- C2: `Alternative.parse` tries the choices strictly in order, each
on the same starting view: if the first choice yields a non-failure
result, that result is the overall result no matter what the remaining
choices would do; if it fails, the overall result is that of the
remaining choices at the same view; and with no choices left the result
is `ParseError("failed alternative")`. -/
theorem c2_ordered_choice (f : Nat) (g : Grammar) (ps : List Expr)
    (v : InputView) (c : Expr) (cs : List Expr) (r : ParseNode)
    (h : parse f c g ps v = .ok r) :
    (r.failed = false → parse (f + 1) (.alt (c :: cs)) g ps v = .ok r)
    ∧ (r.failed = true →
        parse (f + 1) (.alt (c :: cs)) g ps v = parse (f + 1) (.alt cs) g ps v)
    ∧ parse (f + 1) (.alt ([] : List Expr)) g ps v
        = .ok (.error ("failed alternative") none) := by
  refine ⟨fun hf => ?_, fun hf => ?_, rfl⟩ <;>
    simp [parse, parseStep, altLoopW, h, Res.bind, hf]

/-- Witness for C2: with choices `"a" | "a"` over `"ab"`, both
alternatives match but the result is the first one's. -/
theorem c2_witness :
    parse 3 (.terminal ['a']) wG [] wV
        = .ok ((ParseNode.terminal ['a'] (wV.range 1) none none).wrap)
    ∧ parse 4 (.alt [.terminal ['a'], .terminal ['a']]) wG [] wV
        = .ok ((ParseNode.terminal ['a'] (wV.range 1) none none).wrap) :=
  ⟨rfl, (c2_ordered_choice 3 wG [] wV (.terminal ['a']) [.terminal ['a']] _ rfl).1 rfl⟩

end Jiramark

namespace Jiramark

/-! ### C5: lookaheads -/

/-- C5: `PosLookahead.parse` succeeds exactly when the predicate
succeeds, returning the predicate's result with its view reset to the
original cursor (so the result consumes no input and its span end is
the cursor position before the lookahead); `NegLookahead.parse`
succeeds with a zero-width, empty-shaped `Wide` exactly when the
predicate fails, and fails otherwise.  Neither advances the cursor. -/
theorem c5_lookahead (f : Nat) (p : Expr) (g : Grammar) (ps : List Expr)
    (v : InputView) (r : ParseNode) (h : parse f p g ps v = .ok r) :
    (r.failed = true →
        parse (f + 1) (.negLookahead p) g ps v = .ok (.wide [] v none none)
      ∧ parse (f + 1) (.posLookahead p) g ps v
          = .ok (.error ("failed PosLookahead") none))
    ∧ (r.failed = false →
        parse (f + 1) (.negLookahead p) g ps v
          = .ok (.error ("failed NegLookahead") none)
      ∧ parse (f + 1) (.posLookahead p) g ps v = .ok (r.setView v)
      ∧ (r.setView v).viewOf = some v) := by
  constructor
  · intro hf
    constructor <;> simp [parse, parseStep, h, Res.bind, hf]
  · intro hf
    refine ⟨?_, ?_, ?_⟩
    · simp [parse, parseStep, h, Res.bind, hf]
    · simp [parse, parseStep, h, Res.bind, hf]
    · cases r <;> simp_all [ParseNode.failed, ParseNode.setView, ParseNode.viewOf]

/-- Witness for C5: the predicate `"a"` succeeds on `ab`, and the
positive lookahead returns its match with the view reset to the start;
it is also applied on the failing side with predicate `"b"`. -/
theorem c5_witness :
    parse 4 (.posLookahead (.terminal ['a'])) wG [] wV
        = .ok (((ParseNode.terminal ['a'] (wV.range 1) none none).wrap).setView wV)
    ∧ parse 4 (.negLookahead (.terminal ['b'])) wG [] wV = .ok (.wide [] wV none none) :=
  ⟨((c5_lookahead 3 (.terminal ['a']) wG [] wV _ rfl).2 rfl).2.1,
   ((c5_lookahead 3 (.terminal ['b']) wG [] wV _ rfl).1 rfl).1⟩

/-! ### C6: Optional (ZeroOrOne) -/

/-- Eliminate a successful monadic bind. -/
theorem bind_ok_elim {α β : Type} {x : Res α} {f : α → Res β} {b : β}
    (h : Res.bind x f = .ok b) : ∃ a, x = .ok a ∧ f a = .ok b := by
  cases x <;> simp_all [Res.bind]

/-- A successful `mergeWith` on a non-failure node yields a `Wide`. -/
theorem mergeWith_ok_wide {v : InputView} {others : List ParseNode}
    {n m : ParseNode} (h : ParseNode.mergeWith v others n = .ok m)
    (hn : n.failed = false) : ∃ cs vv rn inn, m = .wide cs vv rn inn := by
  cases n with
  | error w c => simp [ParseNode.failed] at hn
  | terminal t vv rn inn => simp [ParseNode.mergeWith] at h
  | lazyNode g2 ps2 p2 ov pv rn inn => simp [ParseNode.mergeWith] at h
  | wide cs vv rn inn =>
      simp only [ParseNode.mergeWith] at h
      split at h
      · simp at h
      · obtain ⟨cs1, _, h⟩ := bind_ok_elim h
        obtain ⟨v1, _, h⟩ := bind_ok_elim h
        exact ⟨cs1, v1, rn, inn, by injection h with h; exact h.symm⟩
  | tall cs vv rn inn =>
      simp only [ParseNode.mergeWith] at h
      split at h
      · simp at h
      · obtain ⟨cs1, _, h⟩ := bind_ok_elim h
        obtain ⟨v1, _, h⟩ := bind_ok_elim h
        exact ⟨cs1, v1, rn, inn, by injection h with h; exact h.symm⟩
  | short c vv rn inn =>
      simp only [ParseNode.mergeWith] at h
      split at h
      · simp at h
      · obtain ⟨cs1, _, h⟩ := bind_ok_elim h
        obtain ⟨v1, _, h⟩ := bind_ok_elim h
        exact ⟨cs1, v1, rn, inn, by injection h with h; exact h.symm⟩

/-- C6: `ZeroOrOne.parse` attempts the sub-expression once (at
`view.next()`); if the attempt fails it succeeds anyway with the
untouched empty-shaped `Wide` whose slot count is the sub-expression's
declared width and whose view is the original cursor; if the attempt
succeeds its result is merged into the empty slots, grouped, and
returned as a (non-failing) `Wide`. -/
theorem c6_optional (f : Nat) (p : Expr) (g : Grammar) (ps : List Expr)
    (v : InputView) (r : ParseNode)
    (h : parse f p g ps v.next = .ok r) :
    (r.failed = true →
        parse (f + 1) (.zeroOrOne p) g ps v = .ok (createEmptySlots p.width v)
      ∧ (createEmptySlots p.width v).childrenRaw
          = some (List.replicate p.width (.tall [] v none none))
      ∧ (List.replicate p.width (ParseNode.tall [] v none none)).length = p.width
      ∧ (createEmptySlots p.width v).viewOf = some v)
    ∧ (r.failed = false →
        ∀ m, r.mergeWith v (List.replicate p.width (.tall [] v none none)) = .ok m →
          parse (f + 1) (.zeroOrOne p) g ps v = .ok m.group ∧ m.group.failed = false) := by
  have hstep : parse (f + 1) (.zeroOrOne p) g ps v
      = Res.bind (ParseNode.mergeWith v (List.replicate p.width (.tall [] v none none)) r)
          (fun nx => .ok (if nx.group.failed then createEmptySlots p.width v
                          else nx.group)) := by
    show parseStep (parse f) f (.zeroOrOne p) g ps v = _
    simp only [parseStep, parseAndMergeW, createEmptySlots, h, Res.bind_ok,
      Res.bind_eq, Res.pure_eq]
  constructor
  · intro hf
    cases r with
    | error w c =>
        refine ⟨?_, rfl, by simp, rfl⟩
        rw [hstep]
        rfl
    | terminal t vv rn inn => simp [ParseNode.failed] at hf
    | wide cs vv rn inn => simp [ParseNode.failed] at hf
    | tall cs vv rn inn => simp [ParseNode.failed] at hf
    | short c vv rn inn => simp [ParseNode.failed] at hf
    | lazyNode g2 ps2 p2 ov pv rn inn => simp [ParseNode.failed] at hf
  · intro hf m hm
    obtain ⟨cs1, v1, r1, i1, rfl⟩ := mergeWith_ok_wide hm hf
    refine ⟨?_, rfl⟩
    rw [hstep, hm]
    rfl

/-- Witness for C6: the optional `"b"?` fails its attempt on `ab` and
substitutes a one-slot empty `Wide`; `"a"?` succeeds and returns the
grouped merge of its match. -/
theorem c6_witness :
    parse 4 (.zeroOrOne (.terminal ['b'])) wG [] wV = .ok (createEmptySlots 1 wV)
    ∧ parse 4 (.zeroOrOne (.terminal ['a'])) wG [] wV
        = .ok ((ParseNode.wide
            [.tall [.terminal ['a'] (wV.next.range 1) none none] (wV.range 1) none none]
            (wV.range 1) none none).group) :=
  ⟨((c6_optional 3 (.terminal ['b']) wG [] wV _ rfl).1 rfl).1,
   (((c6_optional 3 (.terminal ['a']) wG [] wV _ rfl).2 rfl) _ rfl).1⟩

end Jiramark

namespace Jiramark

/-! ### C8: cached-regex rule parse (corrected: the failure message uses
the rule's *name*, not its description) -/

/-- C8 (amended): with a cached regex and a matching parameter count,
`Rule.parse` anchors the regex on the cursor's remaining text; on no
match it fails with `"expected to find "` followed by the rule's *name*
(`Rule.getErrorMsg`), and on a match of length `L` it returns a
`ParseLazyNode` whose view extends the cursor by exactly `L`
characters, storing grammar, params, body and cursor without running
the body (the statement holds for an arbitrary parse function `P`,
so no parsing is performed). -/
theorem c8_cached_rule (P : ParseFn) (g : Grammar) (rule : Rule)
    (ps : List Expr) (v : InputView) (re : Regex)
    (hc : rule.cached = some re)
    (hl : ps.length = rule.formals.length) :
    (jsExec re v.rest = none →
      ruleParseW P g rule ps v
        = .ok (.error ("expected to find " ++ rule.rname) none))
    ∧ (∀ L, jsExec re v.rest = some L →
      ruleParseW P g rule ps v
        = .ok (.lazyNode g ps rule.body v (v.range L) (some rule.rname) none)
      ∧ (v.range L).vend = v.vend + L ∧ (v.range L).vbegin = v.vbegin) := by
  constructor
  · intro hx
    simp [ruleParseW, hc, hl, hx]
  · intro L hx
    refine ⟨?_, rfl, rfl⟩
    simp [ruleParseW, hc, hl, hx]

/-- A rule whose name and description differ, with a cached regex. -/
def zRule : Rule := ⟨"top", [], "a letter", .terminal ['z'], some (.str ['z'])⟩

/-- Counterexample for C8 as stated: for the cached rule named `top`
with description `a letter`, a regex miss produces the message
`expected to find top` — which is not `"expected "` followed by the
rule's description. -/
theorem c8_counterexample :
    ruleParseW (parse 3) wG zRule [] ⟨['q'], 0, 0⟩
      = .ok (.error ("expected to find top") none)
    ∧ ("expected to find top" : String) ≠ "expected " ++ zRule.desc := by
  exact ⟨rfl, by decide⟩

/-- Witness for C8: both branches at concrete inputs — a miss on `q`
and a hit of length 1 on `z`. -/
theorem c8_witness :
    ruleParseW (parse 3) wG zRule [] ⟨['q'], 0, 0⟩
      = .ok (.error ("expected to find top") none)
    ∧ ruleParseW (parse 3) wG zRule [] ⟨['z'], 0, 0⟩
      = .ok (.lazyNode wG [] (.terminal ['z']) ⟨['z'], 0, 0⟩
          (InputView.range ⟨['z'], 0, 0⟩ 1) (some "top") none) :=
  ⟨(c8_cached_rule (parse 3) wG zRule [] ⟨['q'], 0, 0⟩ (.str ['z']) rfl rfl).1 rfl,
   ((c8_cached_rule (parse 3) wG zRule [] ⟨['z'], 0, 0⟩ (.str ['z']) rfl rfl).2 1 rfl).1⟩

/-! ### C10: a successful top-level parse spans the whole input -/

/-- C10: `Grammar.parse` wraps the default rule's result: if that
result is a non-failure that leaves input unconsumed, the overall
result is a `ParseError` naming the remaining text; consequently any
non-failure result of `Grammar.parse` has consumed the entire
remaining input. -/
theorem c10_whole_input (f : Nat) (g : Grammar) (s : List Char) (r : ParseNode)
    (h : Grammar.applyW (parse f) g g.gdefault [] ⟨s, 0, 0⟩ = .ok r) :
    Grammar.parseG f g s
      = .ok (if r.hasMoreN then
              .error ("failed to parse remaining " ++ jsonL r.restOf) none
             else r)
    ∧ (r.failed = false → r.hasMoreN = true →
        Grammar.parseG f g s
          = .ok (.error ("failed to parse remaining " ++ jsonL r.restOf) none))
    ∧ (∀ n, Grammar.parseG f g s = .ok n → n.failed = false → n.restOf = []) := by
  have h1 : Grammar.parseG f g s
      = .ok (if r.hasMoreN then
              .error ("failed to parse remaining " ++ jsonL r.restOf) none
             else r) := by
    simp [Grammar.parseG, h, Res.bind]
  refine ⟨h1, fun _ hm => by simp [h1, hm], ?_⟩
  intro n hn hnf
  rw [h1] at hn
  injection hn with hn
  by_cases hm : r.hasMoreN
  · rw [if_pos hm] at hn
    rw [← hn] at hnf
    simp [ParseNode.failed] at hnf
  · rw [if_neg hm] at hn
    subst hn
    exact restOf_eq_nil r (by simpa using hm)

/-- Witness for C10: `top = "a"` over `ab` succeeds on the rule but
leaves `b`, so the overall parse is the leftover failure; over `a` the
whole input is consumed. -/
theorem c10_witness :
    Grammar.parseG 5 wG ['a', 'b']
      = .ok (.error ("failed to parse remaining " ++ jsonL ['b']) none)
    ∧ (∀ n, Grammar.parseG 5 wG ['a'] = .ok n → n.failed = false → n.restOf = []) := by
  refine ⟨?_, (c10_whole_input 5 wG ['a'] _ rfl).2.2⟩
  have h := (c10_whole_input 5 wG ['a', 'b'] _ rfl).1
  rw [h]
  rfl

end Jiramark

namespace Jiramark

/-! ### Visitor dispatch -/

/-- A handler table: `table` maps resolution keys to handlers invoked
with the node's (unwrapped) children as positional arguments, and
`termH` is the fixed `_terminal` fallback, invoked on the terminal node
itself. -/
structure Visitor (V : Type) where
  table : String → Option (List ParseNode → V)
  termH : ParseNode → V

/-- A JS visit result: a handler value or (for `ParseTallNode.visit`)
an array of results. -/
inductive VRes (V : Type) where
  | val (v : V)
  | arr (vs : List (VRes V))
deriving Repr

/-- The resolution key: `pt_rname`, with `"_" + pt_iname` appended when
an inline name is present (JS string coercion turns a `null` rule name
into the text `null` in that case). -/
def visitKey (rn inm : Option String) : Option String :=
  match inm with
  | some i => some ((match rn with | some r => r | none => "null") ++ "_" ++ i)
  | none => rn

/-- `JSON.stringify` of the (possibly `null`) key, as used in the
missing-handler message. -/
def keyStr : Option String → String
  | none => "null"
  | some k => jsonS k

/-- The handler found for a key, if any (`hasKey(visitor, name)`). -/
def visitHit {V : Type} (vis : Visitor V) (rn inm : Option String) :
    Option (List ParseNode → V) :=
  match visitKey rn inm with
  | some k => vis.table k
  | none => none

/-- `toString()` of a `ParseError` (the causal chain joined by `: `);
other nodes stringify as JS objects. -/
def errorString : ParseNode → String
  | .error w (some c) => w ++ ": " ++ errorString c
  | .error w none => w
  | _ => "[object Object]"

/-- Visit a list of children in order. -/
def visitList {V : Type} (W : ParseNode → Res (VRes V)) :
    List ParseNode → Res (List (VRes V))
  | [] => .ok []
  | n :: ns => do
      let r ← W n
      let rs ← visitList W ns
      .ok (r :: rs)

/-- One step of `visit`: `ParseMultiNode.visit` dispatches `Wide` nodes
by key with single-child pass-through; `ParseTallNode` (and so `Short`)
overrides it to map the visit over its items; `ParseTerminal` calls the
`_terminal` fallback; `ParseLazyNode` forces itself by re-running its
body and visits the expansion; `ParseError.visit` throws. -/
def visitStep {V : Type} (W : ParseNode → Visitor V → Res (VRes V)) (f : Nat) :
    ParseNode → Visitor V → Res (VRes V)
  | .terminal t v r i, vis => .ok (.val (vis.termH (.terminal t v r i)))
  | .wide cs _ rn inm, vis =>
      match visitHit vis rn inm with
      | some h => .ok (.val (h (cs.map ParseNode.unwrapShort)))
      | none =>
          match cs.map ParseNode.unwrapShort with
          | [c] => W c vis
          | _ => .err ("missing visitor method for " ++ keyStr (visitKey rn inm))
  | .tall cs _ _ _, vis => do
      let rs ← visitList (fun n => W n vis) (cs.map ParseNode.unwrapShort)
      .ok (.arr rs)
  | .short c _ _ _, vis => do
      let rs ← visitList (fun n => W n vis) ([c].map ParseNode.unwrapShort)
      .ok (.arr rs)
  | .lazyNode g ps pred ov _ rn _, vis => do
      let r ← parse f pred g ps ov
      if r.failed then .err ("Internal error! Failed to collapse lazy node.")
      else do
        let r1 ← r.setRuleName rn
        W r1 vis
  | .error w c, _ => .err ("failed to parse input: " ++ errorString (.error w c))

/-- The fueled visit entry point. -/
def visit {V : Type} : Nat → ParseNode → Visitor V → Res (VRes V)
  | 0, _, _ => .div
  | f + 1, n, vis => visitStep (fun m vis2 => visit f m vis2) f n vis

end Jiramark

namespace Jiramark

/-! ### C7: visitor dispatch (corrected: Tall nodes override dispatch) -/

/-- C7 (amended): for *fixed-arity* (`Wide`) composite nodes, dispatch
computes the key as the rule name with `"_" + caseLabel` appended when a
case label is present; a handler found under that key is invoked with
the node's (unwrapped) children as positional arguments; otherwise a
single-child node passes through to its child, and any other node
raises an error naming the missing key.  Terminal nodes always dispatch
to the fixed `_terminal` fallback.  Variable-arity (`Tall`, including
singleton `Short`) composite nodes do *not* dispatch: they visit each
item and return the list of results, regardless of the handler
table. -/
theorem c7_visitor_dispatch {V : Type} (f : Nat) (cs : List ParseNode)
    (v : InputView) (rn inm : Option String) (vis : Visitor V)
    (t : List Char) (c : ParseNode) :
    (∀ h, visitHit vis rn inm = some h →
      visit (f + 1) (.wide cs v rn inm) vis
        = .ok (.val (h (cs.map ParseNode.unwrapShort))))
    ∧ (visitHit vis rn inm = none → cs.map ParseNode.unwrapShort = [c] →
      visit (f + 1) (.wide cs v rn inm) vis = visit f c vis)
    ∧ (visitHit vis rn inm = none →
        (cs.map ParseNode.unwrapShort).length ≠ 1 →
      visit (f + 1) (.wide cs v rn inm) vis
        = .err ("missing visitor method for " ++ keyStr (visitKey rn inm)))
    ∧ visit (f + 1) (.terminal t v rn inm) vis
        = .ok (.val (vis.termH (.terminal t v rn inm)))
    ∧ visit (f + 1) (.tall cs v rn inm) vis
        = Res.bind (visitList (fun n => visit f n vis) (cs.map ParseNode.unwrapShort))
            (fun rs => .ok (.arr rs)) := by
  refine ⟨fun h hh => ?_, fun hh hc => ?_, fun hh hc => ?_, rfl, rfl⟩
  · simp [visit, visitStep, hh]
  · simp [visit, visitStep, hh, hc]
  · simp only [visit, visitStep, hh]
    rcases hcs : cs.map ParseNode.unwrapShort with _ | ⟨c1, _ | cs2⟩ <;>
      simp_all

/-- A two-item `Tall` node carrying a rule name that has a handler. -/
def tallFoo : ParseNode :=
  .tall [.terminal ['a'] wV none none, .terminal ['b'] wV none none]
    wV (some "foo") none

/-- A handler table in which key `foo` is bound. -/
def visFoo : Visitor Nat :=
  ⟨fun k => if k = "foo" then some (fun _ => 7) else none, fun _ => 0⟩

/-- Counterexample for C7 as stated: `tallFoo` is a composite node
whose key `foo` is in the table, yet its visit does not invoke the
handler (which returns `7`): `ParseTallNode.visit` maps over the items
and returns the list of their results. -/
theorem c7_counterexample :
    visit 5 tallFoo visFoo = .ok (.arr [.val 0, .val 0])
    ∧ visit 5 tallFoo visFoo ≠ .ok (.val 7)
    ∧ visitHit visFoo (some "foo") none = some (fun _ => 7) := by
  refine ⟨rfl, fun h => ?_, rfl⟩
  rw [show visit 5 tallFoo visFoo = .ok (.arr [.val 0, .val 0]) from rfl] at h
  injection h with h
  exact VRes.noConfusion h

/-- Witness for C7 (amended): a `Wide` node named `foo` dispatches to
the handler with its children; an unnamed single-child `Wide` passes
through to its terminal child; an unnamed two-child `Wide` raises the
missing-handler error naming the `null` key. -/
theorem c7_witness :
    visit 5 (.wide [.terminal ['a'] wV none none] wV (some "foo") none) visFoo
      = .ok (.val 7)
    ∧ visit 5 (.wide [.terminal ['a'] wV none none] wV none none) visFoo
      = .ok (.val 0)
    ∧ visit 5 (.wide [.terminal ['a'] wV none none, .terminal ['b'] wV none none]
          wV none none) visFoo
      = .err ("missing visitor method for null") := by
  refine ⟨(c7_visitor_dispatch 4 [.terminal ['a'] wV none none] wV (some "foo")
      none visFoo ['a'] (.terminal ['a'] wV none none)).1 _ rfl, ?_, ?_⟩
  · rw [(c7_visitor_dispatch 4 [.terminal ['a'] wV none none] wV none none visFoo
      ['a'] (.terminal ['a'] wV none none)).2.1 rfl rfl]
    rfl
  · exact (c7_visitor_dispatch 4
      [.terminal ['a'] wV none none, .terminal ['b'] wV none none] wV none none
      visFoo ['a'] (.terminal ['a'] wV none none)).2.2.1 rfl (by decide)

end Jiramark

namespace Jiramark

/-! ### C4: ZeroOrMore over a zero-width-succeeding expression
(corrected: the loop does not terminate) -/

/-- The optional `"a"?`, an expression that succeeds with zero width
when `a` is absent. -/
def zooA : Expr := .zeroOrOne (.terminal ['a'])

/-- The start view of the input `b`, on which `"a"?` succeeds while
consuming nothing. -/
def vB : InputView := ⟨['b'], 0, 0⟩

/-- The repeating accumulator state of the `ZeroOrMore` loop. -/
def wCe : ParseNode := createEmptySlots 1 vB

/-- On `b`, the optional parses to exactly the empty one-slot `Wide`
with the cursor unmoved, at every sufficient fuel. -/
theorem zooA_fix (f : Nat) : parse (f + 2) zooA wG [] vB = .ok wCe := rfl

/-- One `parseAndMerge` of the optional into the accumulator reproduces
the accumulator exactly. -/
theorem zooA_merge_fix (f : Nat) :
    parseAndMergeW (parse (f + 2)) wG [] zooA wCe = .ok wCe := rfl

/-- The repetition loop never leaves the repeated state: it exhausts
any iteration budget. -/
theorem zom_loop_div (c f : Nat) :
    zomLoopW (parse (f + 2)) wG [] zooA c wCe = .div := by
  induction c with
  | zero => rfl
  | succ c ih =>
      show zomLoopW (parse (f + 2)) wG [] zooA (c + 1) wCe = .div
      rw [zomLoopW]
      rw [show (!wCe.hasMoreN) = false from rfl]
      rw [zooA_merge_fix f]
      simpa [ParseNode.failed, wCe, createEmptySlots] using ih

/-- Counterexample for C4 as stated: `"a"?` succeeds at `b` while
consuming no input (so it is a sub-expression that can succeed at zero
width), yet `ZeroOrMore("a"?)` run on `b` diverges at every fuel — the
do/while in `ZeroOrMore.prototype.parse` never exits, so the parse does
not terminate, let alone return the empty accumulation. -/
theorem c4_counterexample :
    (∀ f, parse f (.zeroOrMore zooA) wG [] vB = .div)
    ∧ (∃ n, parse 2 zooA wG [] vB = .ok n ∧ n.failed = false
        ∧ n.viewOf = some vB) := by
  constructor
  · intro f
    match f with
    | 0 => rfl
    | 1 => rfl
    | 2 => rfl
    | (f + 3) =>
        show parseStep (parse (f + 2)) (f + 2) (.zeroOrMore zooA) wG [] vB = .div
        have hz := zom_loop_div (f + 2) f
        simp only [parseStep]
        rw [show createEmptySlots zooA.width vB = wCe from rfl]
        rw [hz]
        rfl
  · exact ⟨wCe, rfl, rfl, rfl⟩

/-- C4 (amended): `ZeroOrMore(e).parse` does terminate, with the empty
accumulation, whenever the cursor has no remaining input — the result
is the grouped empty-shaped `Wide` with one empty `Tall` (boxed in a
`Short`) per slot of `e`'s width, at the original cursor.  (With input
remaining and a zero-width-succeeding `e`, the loop does not terminate;
see the counterexample.) -/
theorem c4_zom_empty_input (f : Nat) (e : Expr) (g : Grammar) (ps : List Expr)
    (v : InputView) (h : v.rest = []) :
    parse (f + 2) (.zeroOrMore e) g ps v = .ok ((createEmptySlots e.width v).group)
    ∧ (createEmptySlots e.width v).group
        = .wide (List.replicate e.width
            (.short (.tall [] v none none) v none none)) v none none := by
  constructor
  · show parseStep (parse (f + 1)) (f + 1) (.zeroOrMore e) g ps v = _
    have hm : (createEmptySlots e.width v).hasMoreN = false := by
      simp [createEmptySlots, ParseNode.hasMoreN, ParseNode.viewOf,
        InputView.hasMore, h]
    simp only [parseStep, zomLoopW, hm, Bool.not_false, if_true]
    rfl
  · simp [createEmptySlots, ParseNode.group, List.map_replicate]

/-- Witness for C4 (amended): at the exhausted view of `x`,
`ZeroOrMore("a")` returns the one-slot empty accumulation. -/
theorem c4_witness :
    parse 5 (.zeroOrMore (.terminal ['a'])) wG [] ⟨['x'], 1, 1⟩
      = .ok (.wide [.short (.tall [] ⟨['x'], 1, 1⟩ none none) ⟨['x'], 1, 1⟩ none none]
          ⟨['x'], 1, 1⟩ none none) := by
  have h := c4_zom_empty_input 3 (.terminal ['a']) wG [] ⟨['x'], 1, 1⟩ rfl
  rw [h.1, h.2]
  rfl

end Jiramark

namespace Jiramark

/-! ### C3: arity stability -/

/-- `n` is a `Wide` node with exactly `w` slots. -/
def IsWideLen (w : Nat) (n : ParseNode) : Prop :=
  ∃ cs v rn inn, n = .wide cs v rn inn ∧ cs.length = w

/-- Arity-stability of a parse function: on every uniform-width
expression, a successful parse yields a `Wide` of the expression's
static width. -/
def ArityOK (P : ParseFn) : Prop :=
  ∀ e g ps v n, e.uniformW = true → P e g ps v = .ok n → n.failed = false →
    IsWideLen e.width n

theorem failed_true_iff (n : ParseNode) :
    n.failed = true ↔ ∃ w c, n = .error w c := by
  cases n <;> simp [ParseNode.failed]

theorem explain_nonfailed (n : ParseNode) (hn : n.failed = false) (msg : String) :
    n.explain msg = n := by
  cases n <;> simp_all [ParseNode.failed, ParseNode.explain]

theorem wrap_wide (n : ParseNode) (hn : n.failed = false) :
    ∃ v, n.viewOf = some v ∧ n.wrap = .wide [.short n v none none] v none none := by
  cases n <;> simp_all [ParseNode.failed, ParseNode.wrap, ParseNode.viewOf]

theorem mergeSlots_length : ∀ (cs os out : List ParseNode),
    ParseNode.mergeSlots cs os = .ok out → cs.length = os.length →
    out.length = cs.length := by
  intro cs
  induction cs with
  | nil => intro os out h _; cases os <;> simp_all [ParseNode.mergeSlots]
  | cons c cs ih =>
      intro os out h hl
      cases os with
      | nil => simp at hl
      | cons o os =>
          simp only [ParseNode.mergeSlots] at h
          obtain ⟨tn, _, h⟩ := bind_ok_elim h
          obtain ⟨ov, _, h⟩ := bind_ok_elim h
          obtain ⟨c1, _, h⟩ := bind_ok_elim h
          obtain ⟨rest, hrest, h⟩ := bind_ok_elim h
          injection h with h
          subst h
          simp [ih os rest hrest (by simpa using hl)]

/-- A successful `mergeWith` into same-length slots, on a successful
`Wide` source, produces a `Wide` of the same length. -/
theorem mergeWith_arity {w : Nat} {res out : ParseNode} {v : InputView}
    {others : List ParseNode}
    (hres : IsWideLen w res) (hov : others.length = w)
    (h : ParseNode.mergeWith v others res = .ok out) : IsWideLen w out := by
  obtain ⟨cs, vv, rn, inn, rfl, hlen⟩ := hres
  simp only [ParseNode.mergeWith] at h
  split at h
  · simp at h
  · obtain ⟨cs1, hcs1, h⟩ := bind_ok_elim h
    obtain ⟨v1, _, h⟩ := bind_ok_elim h
    injection h with h
    subst h
    exact ⟨cs1, v1, rn, inn, rfl, by
      rw [mergeSlots_length cs others cs1 hcs1 (by omega)]; exact hlen⟩

/-- A successful, non-failing `parseAndMerge` of a uniform-width
predicate into a `Wide` accumulator of matching width stays a `Wide`
of that width. -/
theorem parseAndMergeW_arity {P : ParseFn} (HP : ArityOK P) {g : Grammar}
    {ps : List Expr} {pred : Expr} (hu : pred.uniformW = true)
    {acc out : ParseNode} (hacc : IsWideLen pred.width acc)
    (h : parseAndMergeW P g ps pred acc = .ok out)
    (hout : out.failed = false) : IsWideLen pred.width out := by
  obtain ⟨cs, v, rn, inn, rfl, hlen⟩ := hacc
  simp only [parseAndMergeW] at h
  obtain ⟨res, hres, h⟩ := bind_ok_elim h
  by_cases hf : res.failed
  · obtain ⟨w2, c2, rfl⟩ := (failed_true_iff res).1 hf
    simp only [ParseNode.mergeWith] at h
    injection h with h
    subst h
    simp [ParseNode.failed] at hout
  · exact mergeWith_arity (HP pred g ps v.next res hu hres (by simpa using hf))
      hlen h

theorem seqLoopW_error (P : ParseFn) (g : Grammar) (ps : List Expr)
    (w : String) (c : Option ParseNode) :
    ∀ parts, seqLoopW P g ps parts (.error w c) = .ok (.error w c) := by
  intro parts
  induction parts with
  | nil => rfl
  | cons p rest ih => simpa [seqLoopW, parseAndConcatW, Res.bind] using ih

/-- The sequence loop: from a `Wide` accumulator of length `k`, a
successful non-failing fold over uniform parts adds exactly the parts'
summed widths. -/
theorem seqLoopW_arity {P : ParseFn} (HP : ArityOK P) (g : Grammar)
    (ps : List Expr) :
    ∀ (parts : List Expr) (acc n : ParseNode) (k : Nat),
      Expr.uniformWList parts = true → IsWideLen k acc →
      seqLoopW P g ps parts acc = .ok n → n.failed = false →
      IsWideLen (k + Expr.widthList parts) n := by
  intro parts
  induction parts with
  | nil =>
      intro acc n k _ hacc h hnf
      simp only [seqLoopW] at h
      injection h with h
      subst h
      simpa [Expr.widthList] using hacc
  | cons p rest ih =>
      intro acc n k hu hacc h hnf
      obtain ⟨cs, v, rn, inn, rfl, hlen⟩ := hacc
      simp only [seqLoopW] at h
      obtain ⟨acc1, hacc1, h⟩ := bind_ok_elim h
      simp only [parseAndConcatW] at hacc1
      obtain ⟨res, hres, hacc1⟩ := bind_ok_elim hacc1
      simp only [Expr.uniformWList, Bool.and_eq_true] at hu
      by_cases hf : res.failed
      · obtain ⟨w2, c2, rfl⟩ := (failed_true_iff res).1 hf
        simp only [ParseNode.prefixWith] at hacc1
        injection hacc1 with hacc1
        subst hacc1
        rw [seqLoopW_error] at h
        injection h with h
        subst h
        simp [ParseNode.failed] at hnf
      · obtain ⟨cs2, v2, rn2, inn2, rfl, hlen2⟩ :=
          HP p g ps v.next res hu.1 hres (by simpa using hf)
        simp only [ParseNode.prefixWith] at hacc1
        obtain ⟨v1, _, hacc1⟩ := bind_ok_elim hacc1
        injection hacc1 with hacc1
        subst hacc1
        have := ih _ n (k + p.width) hu.2
          ⟨cs ++ cs2, v1, rn2, inn2, rfl, by simp [hlen, hlen2]⟩ h hnf
        simpa [Expr.widthList, Nat.add_assoc] using this

/-- The alternation loop returns the result of one of its choices. -/
theorem altLoopW_pick (P : ParseFn) (g : Grammar) (ps : List Expr) :
    ∀ (cs : List Expr) (v : InputView) (n : ParseNode),
      altLoopW P g ps cs v = .ok n → n.failed = false →
      ∃ c ∈ cs, P c g ps v = .ok n := by
  intro cs
  induction cs with
  | nil =>
      intro v n h hnf
      simp only [altLoopW] at h
      injection h with h
      subst h
      simp [ParseNode.failed] at hnf
  | cons c cs ih =>
      intro v n h hnf
      simp only [altLoopW] at h
      obtain ⟨r, hr, h⟩ := bind_ok_elim h
      by_cases hf : r.failed
      · rw [if_pos hf] at h
        obtain ⟨c2, hc2, hp⟩ := ih v n h hnf
        exact ⟨c2, by simp [hc2], hp⟩
      · rw [if_neg hf] at h
        injection h with h
        subst h
        exact ⟨c, by simp, hr⟩

/-- The repetition loop preserves the accumulator's arity. -/
theorem zomLoopW_arity {P : ParseFn} (HP : ArityOK P) (g : Grammar)
    (ps : List Expr) (pred : Expr) (hu : pred.uniformW = true) :
    ∀ (c : Nat) (acc n : ParseNode), IsWideLen pred.width acc →
      zomLoopW P g ps pred c acc = .ok n → IsWideLen pred.width n := by
  intro c
  induction c with
  | zero => intro acc n _ h; simp [zomLoopW] at h
  | succ c ih =>
      intro acc n hacc h
      simp only [zomLoopW] at h
      split at h
      · injection h with h; subst h; exact hacc
      · cases hpm : parseAndMergeW P g ps pred acc with
        | ok nxt =>
            rw [hpm] at h
            dsimp only at h
            by_cases hf : nxt.failed
            · rw [if_pos hf] at h
              injection h with h; subst h; exact hacc
            · rw [if_neg hf] at h
              exact ih nxt n
                (parseAndMergeW_arity HP hu hacc hpm (by simpa using hf)) h
        | err m => rw [hpm] at h; simp at h
        | div => rw [hpm] at h; simp at h

end Jiramark

namespace Jiramark

/-- Every member of a uniform expression list is uniform. -/
theorem uniformWList_mem : ∀ (l : List Expr), Expr.uniformWList l = true →
    ∀ c ∈ l, c.uniformW = true := by
  intro l
  induction l with
  | nil => simp
  | cons d ds ih =>
      intro h c hc
      simp only [Expr.uniformWList, Bool.and_eq_true] at h
      rcases List.mem_cons.1 hc with rfl | hc
      · exact h.1
      · exact ih h.2 c hc

/-- In a uniform alternation, every choice is uniform and has the
alternation's width. -/
theorem uniform_alt_mem {choices : List Expr}
    (hu : (Expr.alt choices).uniformW = true) :
    ∀ c ∈ choices, c.uniformW = true ∧ c.width = (Expr.alt choices).width := by
  cases choices with
  | nil => intro c hc; simp at hc
  | cons c0 cs =>
      simp only [Expr.uniformW, Bool.and_eq_true, List.all_eq_true,
        beq_iff_eq] at hu
      intro c hc
      refine ⟨uniformWList_mem _ hu.1 c hc, ?_⟩
      rcases List.mem_cons.1 hc with rfl | hc
      · rfl
      · exact hu.2 c hc

/-- Arity stability of the fueled parser: for every uniform-width
expression, every grammar, parameter list and view, a successful
non-failing parse returns a `Wide` node with exactly the expression's
static width of slots. -/
theorem parse_arity : ∀ f, ArityOK (parse f) := by
  intro f
  induction f with
  | zero =>
      intro e g ps v n hu hp hnf
      simp [parse] at hp
  | succ f ih =>
      intro e g ps v n hu hp hnf
      rw [show parse (f + 1) = parseStep (parse f) f from rfl] at hp
      cases e with
      | terminal s =>
          simp only [parseStep] at hp
          split at hp <;> injection hp with hp <;> subst hp
          · exact ⟨_, _, _, _, rfl, rfl⟩
          · simp [ParseNode.failed] at hnf
      | range lo hi =>
          simp only [parseStep] at hp
          split at hp
          · split at hp <;> injection hp with hp <;> subst hp
            · exact ⟨_, _, _, _, rfl, rfl⟩
            · simp [ParseNode.failed] at hnf
          · injection hp with hp; subst hp; simp [ParseNode.failed] at hnf
      | regexPred c =>
          simp only [parseStep] at hp
          split at hp
          · split at hp <;> injection hp with hp <;> subst hp
            · exact ⟨_, _, _, _, rfl, rfl⟩
            · simp [ParseNode.failed] at hnf
          · injection hp with hp; subst hp; simp [ParseNode.failed] at hnf
      | seq parts =>
          simp only [parseStep] at hp
          have := seqLoopW_arity ih g ps parts (.wide [] v none none) n 0
            (by simpa [Expr.uniformW] using hu)
            ⟨[], v, none, none, rfl, rfl⟩ hp hnf
          simpa [Expr.width] using this
      | alt choices =>
          simp only [parseStep] at hp
          obtain ⟨c, hc, hpc⟩ := altLoopW_pick (parse f) g ps choices v n hp hnf
          obtain ⟨hcu, hcw⟩ := uniform_alt_mem hu c hc
          rw [← hcw]
          exact ih c g ps v n hcu hpc hnf
      | namedSeq nm body =>
          simp only [parseStep] at hp
          obtain ⟨res, hres, hp⟩ := bind_ok_elim hp
          by_cases hf : res.failed
          · obtain ⟨w2, c2, rfl⟩ := (failed_true_iff res).1 hf
            simp only [ParseNode.setInlineName] at hp
            injection hp with hp; subst hp
            simp [ParseNode.failed] at hnf
          · obtain ⟨cs2, v2, rn2, inn2, rfl, hlen2⟩ :=
              ih body g ps v res (by simpa [Expr.uniformW] using hu) hres
                (by simpa using hf)
            simp only [ParseNode.setInlineName] at hp
            split at hp
            · simp at hp
            · injection hp with hp; subst hp
              exact ⟨cs2, v2, rn2, some nm, rfl, hlen2⟩
      | zeroOrMore p =>
          simp only [parseStep] at hp
          obtain ⟨r, hr, hp⟩ := bind_ok_elim hp
          injection hp with hp; subst hp
          have hu2 : p.uniformW = true := by simpa [Expr.uniformW] using hu
          obtain ⟨cs2, v2, rn2, inn2, rfl, hlen2⟩ :=
            zomLoopW_arity ih g ps p hu2 f (createEmptySlots p.width v) r
              ⟨_, v, none, none, rfl, by simp [createEmptySlots]⟩ hr
          exact ⟨_, v2, rn2, inn2, rfl, by
            simpa [ParseNode.explain, ParseNode.group, Expr.width] using hlen2⟩
      | oneOrMore p =>
          simp only [parseStep] at hp
          obtain ⟨first, hfirst, hp⟩ := bind_ok_elim hp
          obtain ⟨r, hr, hp⟩ := bind_ok_elim hp
          injection hp with hp; subst hp
          have hu2 : p.uniformW = true := by simpa [Expr.uniformW] using hu
          by_cases hf : first.failed
          · obtain ⟨w2, c2, rfl⟩ := (failed_true_iff first).1 hf
            have : r = .error w2 c2 := by
              cases f with
              | zero => simp [zomLoopW] at hr
              | succ f2 =>
                  simp only [zomLoopW, ParseNode.hasMoreN, Bool.not_false,
                    if_true] at hr
                  injection hr with hr
                  exact hr.symm
            subst this
            simp [ParseNode.explain, ParseNode.group, ParseNode.failed] at hnf
          · have hfw : IsWideLen p.width first :=
              parseAndMergeW_arity ih hu2
                ⟨_, v, none, none, rfl, by simp [createEmptySlots]⟩ hfirst
                (by simpa using hf)
            obtain ⟨cs2, v2, rn2, inn2, rfl, hlen2⟩ :=
              zomLoopW_arity ih g ps p hu2 f first r hfw hr
            exact ⟨_, v2, rn2, inn2, rfl, by
              simpa [ParseNode.explain, ParseNode.group, Expr.width] using hlen2⟩
      | zeroOrOne p =>
          simp only [parseStep] at hp
          obtain ⟨nx, hnx, hp⟩ := bind_ok_elim hp
          injection hp with hp; subst hp
          have hu2 : p.uniformW = true := by simpa [Expr.uniformW] using hu
          by_cases hf : nx.failed
          · obtain ⟨w2, c2, rfl⟩ := (failed_true_iff nx).1 hf
            simp only [ParseNode.group, ParseNode.failed, if_true]
            exact ⟨_, v, none, none, rfl, by simp [createEmptySlots, Expr.width]⟩
          · obtain ⟨cs2, v2, rn2, inn2, rfl, hlen2⟩ :=
              parseAndMergeW_arity ih hu2
                ⟨_, v, none, none, rfl, by simp [createEmptySlots]⟩ hnx
                (by simpa using hf)
            simp only [ParseNode.group, ParseNode.failed, if_false]
            exact ⟨_, v2, rn2, inn2, rfl, by simp [hlen2, Expr.width]⟩
      | negLookahead p =>
          simp only [parseStep] at hp
          obtain ⟨r, hr, hp⟩ := bind_ok_elim hp
          injection hp with hp; subst hp
          by_cases hf : r.failed
          · simp only [hf, if_true]
            exact ⟨[], v, none, none, rfl, rfl⟩
          · rw [if_neg (by simpa using hf)] at hnf ⊢
            simp [ParseNode.failed] at hnf
      | posLookahead p =>
          simp only [parseStep] at hp
          obtain ⟨r, hr, hp⟩ := bind_ok_elim hp
          by_cases hf : r.failed
          · rw [if_pos hf] at hp
            injection hp with hp; subst hp
            simp [ParseNode.failed] at hnf
          · rw [if_neg hf] at hp
            injection hp with hp; subst hp
            obtain ⟨cs2, v2, rn2, inn2, rfl, hlen2⟩ :=
              ih p g ps v r (by simpa [Expr.uniformW] using hu) hr
                (by simpa using hf)
            exact ⟨cs2, v, rn2, inn2, rfl, hlen2⟩
      | formalsApply nm idx =>
          simp only [parseStep] at hp
          split at hp
          · simp at hp
          · obtain ⟨r, hr, hp⟩ := bind_ok_elim hp
            injection hp with hp; subst hp
            by_cases hf : r.failed
            · obtain ⟨w2, c2, rfl⟩ := (failed_true_iff r).1 hf
              simp [ParseNode.explain, ParseNode.wrap, ParseNode.failed] at hnf
            · rw [explain_nonfailed r (by simpa using hf)]
              obtain ⟨vw, _, hw⟩ := wrap_wide r (by simpa using hf)
              rw [hw]
              exact ⟨_, vw, none, none, rfl, rfl⟩
      | ruleApply nm args =>
          simp only [parseStep] at hp
          obtain ⟨subbed, _, hp⟩ := bind_ok_elim hp
          obtain ⟨r, hr, hp⟩ := bind_ok_elim hp
          injection hp with hp; subst hp
          by_cases hf : r.failed
          · obtain ⟨w2, c2, rfl⟩ := (failed_true_iff r).1 hf
            simp [ParseNode.explain, ParseNode.wrap, ParseNode.failed] at hnf
          · rw [explain_nonfailed r (by simpa using hf)]
            obtain ⟨vw, _, hw⟩ := wrap_wide r (by simpa using hf)
            rw [hw]
            exact ⟨_, vw, none, none, rfl, rfl⟩

end Jiramark

namespace Jiramark

/-- All ordered choices in the grammar's rule bodies have uniform
widths. -/
def GrammarUniform (g : Grammar) : Prop :=
  (g.grules.all fun p => p.2.body.uniformW) = true

/-- C3: in a grammar whose ordered choices all have equal-width
alternatives, for every uniform-width expression, every parameter
list, and every input view on which the expression's parse succeeds,
the produced node is a `Wide` whose slot count equals the expression's
statically computed width, independent of the input's content. -/
theorem c3_arity_stability (f : Nat) (e : Expr) (g : Grammar)
    (ps : List Expr) (v : InputView) (n : ParseNode)
    (_hg : GrammarUniform g) (hu : e.uniformW = true)
    (hp : parse f e g ps v = .ok n) (hnf : n.failed = false) :
    ∃ cs vv rn inn, n = .wide cs vv rn inn ∧ cs.length = e.width := by
  exact parse_arity f e g ps v n hu hp hnf

/-- Witness for C3: the two-terminal sequence over `ab` yields a
two-slot `Wide`. -/
theorem c3_witness : ∃ cs vv rn inn,
    (ParseNode.wide
      [.short (.terminal ['a'] ⟨['a','b'], 0, 1⟩ none none) ⟨['a','b'], 0, 1⟩ none none,
       .short (.terminal ['b'] ⟨['a','b'], 1, 2⟩ none none) ⟨['a','b'], 1, 2⟩ none none]
      ⟨['a','b'], 0, 2⟩ none none)
      = ParseNode.wide cs vv rn inn
    ∧ cs.length = (Expr.seq [.terminal ['a'], .terminal ['b']]).width :=
  c3_arity_stability 5 (.seq [.terminal ['a'], .terminal ['b']]) wG [] wV _
    rfl rfl rfl rfl

end Jiramark

namespace Jiramark

/-! ### C1: regex fast path vs. full parse -/

theorem lstartsWith_take : ∀ (p s : List Char), lstartsWith p s = true →
    s.take p.length = p := by
  intro p
  induction p with
  | nil => intro s _; simp
  | cons c cs ih =>
      intro s h
      cases s with
      | nil => simp [lstartsWith] at h
      | cons d ds =>
          simp only [lstartsWith, Bool.and_eq_true, beq_iff_eq] at h
          simp [h.1, ih ds h.2]

theorem lstartsWith_append : ∀ (p s : List Char), lstartsWith p s = true →
    s = p ++ s.drop p.length := by
  intro p s h
  conv_lhs => rw [← List.take_append_drop p.length s]
  rw [lstartsWith_take p s h]

/-- Soundness of the backtracking matcher: a reported match splits the
input into a prefix in the regex's language and a suffix accepted by
the continuation. -/
theorem reM_sound : ∀ (fuel : Nat) (r : Regex) (s : List Char)
    (k : List Char → Option Nat) (n : Nat), reM fuel r s k = some n →
    ∃ p q, s = p ++ q ∧ Matches r p ∧ k q = some n := by
  intro fuel
  induction fuel with
  | zero => intro r s k n h; simp [reM] at h
  | succ f ih =>
      intro r s k n h
      cases r with
      | fail => simp [reM] at h
      | eps => exact ⟨[], s, rfl, Matches.eps, h⟩
      | cls c =>
          cases s with
          | nil => simp [reM] at h
          | cons ch rest =>
              simp only [reM] at h
              split at h
              · exact ⟨[ch], rest, rfl, Matches.cls (by assumption), h⟩
              · simp at h
      | str lit =>
          simp only [reM] at h
          split at h
          · exact ⟨lit, s.drop lit.length,
              lstartsWith_append lit s (by assumption), Matches.str lit, h⟩
          · simp at h
      | cat a b =>
          simp only [reM] at h
          obtain ⟨p1, q1, hs1, hm1, hk1⟩ := ih a s _ n h
          obtain ⟨p2, q2, hs2, hm2, hk2⟩ := ih b q1 k n hk1
          exact ⟨p1 ++ p2, q2, by rw [hs1, hs2, List.append_assoc],
            Matches.cat hm1 hm2, hk2⟩
      | alt a b =>
          simp only [reM] at h
          cases ha : reM f a s k with
          | some m =>
              rw [ha] at h
              injection h with h
              subst h
              obtain ⟨p, q, hs, hm, hk⟩ := ih a s k m ha
              exact ⟨p, q, hs, Matches.altL hm, hk⟩
          | none =>
              rw [ha] at h
              obtain ⟨p, q, hs, hm, hk⟩ := ih b s k n h
              exact ⟨p, q, hs, Matches.altR hm, hk⟩
      | star r =>
          simp only [reM] at h
          cases ha : reM f r s
              (fun s1 => if s1.length < s.length then reM f (.star r) s1 k
                         else none) with
          | some m =>
              rw [ha] at h
              injection h with h
              subst h
              obtain ⟨p1, q1, hs1, hm1, hk1⟩ := ih r s _ m ha
              split at hk1
              · obtain ⟨p2, q2, hs2, hm2, hk2⟩ := ih (.star r) q1 k m hk1
                exact ⟨p1 ++ p2, q2, by rw [hs1, hs2, List.append_assoc],
                  Matches.starCons hm1 hm2, hk2⟩
              · simp at hk1
          | none =>
              rw [ha] at h
              exact ⟨[], s, rfl, Matches.starNil, h⟩

/-- Soundness of the `exec` model: a match of length `L` means the
first `L` characters are in the regex's language. -/
theorem jsExec_sound (r : Regex) (s : List Char) (L : Nat)
    (h : jsExec r s = some L) : L ≤ s.length ∧ Matches r (s.take L) := by
  obtain ⟨p, q, hs, hm, hk⟩ := reM_sound _ r s _ L h
  injection hk with hk
  have hlen : s.length = p.length + q.length := by rw [hs]; simp
  have hL : L = p.length := by omega
  subst hL
  constructor
  · omega
  · rw [hs, List.take_left]
    exact hm

/-! #### Text segments -/

/-- The text between offsets `a` and `b` of `s`. -/
def seg (s : List Char) (a b : Nat) : List Char := (s.drop a).take (b - a)

theorem seg_self (s : List Char) (a : Nat) : seg s a a = [] := by
  simp [seg]

theorem seg_range (s : List Char) (a L : Nat) :
    seg s a (a + L) = (s.drop a).take L := by
  simp [seg]

theorem seg_append (s : List Char) (a b c : Nat) (h1 : a ≤ b) (h2 : b ≤ c) :
    seg s a c = seg s a b ++ seg s b c := by
  have hdd : (s.drop a).drop (b - a) = s.drop b := by
    rw [List.drop_drop]
    congr 1
    omega
  have hc : c - a = (b - a) + (c - b) := by omega
  rw [seg, hc, List.take_add, hdd]
  simp [seg]

theorem star_append {r : Regex} {p q : List Char}
    (hp : Matches (.star r) p) (hq : Matches (.star r) q) :
    Matches (.star r) (p ++ q) := by
  generalize hsr : Regex.star r = sr at hp
  revert hsr
  induction hp with
  | eps => intro hsr; simp at hsr
  | cls h => intro hsr; simp at hsr
  | str s => intro hsr; simp at hsr
  | cat ha hb iha ihb => intro hsr; simp at hsr
  | altL h ih => intro hsr; simp at hsr
  | altR h ih => intro hsr; simp at hsr
  | starNil =>
      intro hsr
      injection hsr with h
      subst h
      simpa using hq
  | starCons h1 h2 ih1 ih2 =>
      intro hsr
      injection hsr with h
      subst h
      rw [List.append_assoc]
      exact Matches.starCons h1 (ih2 rfl)

theorem star_single {r : Regex} {p : List Char} (hp : Matches r p) :
    Matches (.star r) p := by
  have := Matches.starCons hp (Matches.starNil (r := r))
  simpa using this

end Jiramark

namespace Jiramark

/-! #### Node-structure lemmas for the soundness induction -/

/-- `n` is a `ParseMultiNode` whose view is `⟨str, b, e⟩`. -/
def IsMultiAt (n : ParseNode) (str : List Char) (b e : Nat) : Prop :=
  (∃ cs rn inn, n = .wide cs ⟨str, b, e⟩ rn inn) ∨
  (∃ cs rn inn, n = .tall cs ⟨str, b, e⟩ rn inn) ∨
  (∃ c rn inn, n = .short c ⟨str, b, e⟩ rn inn)

theorem IsMultiAt.viewOf {n : ParseNode} {str : List Char} {b e : Nat}
    (h : IsMultiAt n str b e) : n.viewOf = some ⟨str, b, e⟩ := by
  rcases h with ⟨cs, rn, inn, rfl⟩ | ⟨cs, rn, inn, rfl⟩ | ⟨c, rn, inn, rfl⟩ <;> rfl

theorem IsMultiAt.not_failed {n : ParseNode} {str : List Char} {b e : Nat}
    (h : IsMultiAt n str b e) : n.failed = false := by
  rcases h with ⟨cs, rn, inn, rfl⟩ | ⟨cs, rn, inn, rfl⟩ | ⟨c, rn, inn, rfl⟩ <;> rfl

theorem parseAndConcatW_multi (P : ParseFn) (g : Grammar) (ps : List Expr)
    (p : Expr) {n : ParseNode} {str : List Char} {b e : Nat}
    (h : IsMultiAt n str b e) :
    parseAndConcatW P g ps p n
      = Res.bind (P p g ps ⟨str, e, e⟩)
          (fun res => res.prefixWith ⟨str, b, e⟩ (n.childrenRaw.getD [])) := by
  rcases h with ⟨cs, rn, inn, rfl⟩ | ⟨cs, rn, inn, rfl⟩ | ⟨c, rn, inn, rfl⟩ <;> rfl

theorem parseAndMergeW_multi (P : ParseFn) (g : Grammar) (ps : List Expr)
    (p : Expr) {n : ParseNode} {str : List Char} {b e : Nat}
    (h : IsMultiAt n str b e) :
    parseAndMergeW P g ps p n
      = Res.bind (P p g ps ⟨str, e, e⟩)
          (fun res => res.mergeWith ⟨str, b, e⟩ (n.childrenRaw.getD [])) := by
  rcases h with ⟨cs, rn, inn, rfl⟩ | ⟨cs, rn, inn, rfl⟩ | ⟨c, rn, inn, rfl⟩ <;> rfl

theorem prefixWith_ok {start vres : InputView} {others : List ParseNode}
    {res out : ParseNode} (hnf : res.failed = false)
    (hv : res.viewOf = some vres)
    (h : res.prefixWith start others = .ok out) :
    start.vend ≤ vres.vend ∧ IsMultiAt out start.str start.vbegin vres.vend := by
  cases res with
  | error w c => simp [ParseNode.failed] at hnf
  | terminal t v rn inn => simp [ParseNode.prefixWith] at h
  | lazyNode g2 ps2 p2 ov pv rn inn => simp [ParseNode.prefixWith] at h
  | wide cs v rn inn =>
      injection hv with hv
      subst hv
      simp only [ParseNode.prefixWith, InputView.extend, InputView.getEnd] at h
      split at h
      · simp [Res.bind] at h
      · simp only [Res.bind_eq2, Res.bind, Res.ok.injEq] at h
        subst h
        exact ⟨by omega, Or.inl ⟨_, _, _, rfl⟩⟩
  | tall cs v rn inn =>
      injection hv with hv
      subst hv
      simp only [ParseNode.prefixWith, InputView.extend, InputView.getEnd] at h
      split at h
      · simp [Res.bind] at h
      · simp only [Res.bind_eq2, Res.bind, Res.ok.injEq] at h
        subst h
        exact ⟨by omega, Or.inr (Or.inl ⟨_, _, _, rfl⟩)⟩
  | short c v rn inn =>
      injection hv with hv
      subst hv
      simp only [ParseNode.prefixWith, InputView.extend, InputView.getEnd] at h
      split at h
      · simp [Res.bind] at h
      · simp only [Res.bind_eq2, Res.bind, Res.ok.injEq] at h
        subst h
        exact ⟨by omega, Or.inr (Or.inl ⟨_, _, _, rfl⟩)⟩

theorem mergeWith_ok_view {start vres : InputView} {others : List ParseNode}
    {res out : ParseNode} (hnf : res.failed = false)
    (hv : res.viewOf = some vres)
    (h : res.mergeWith start others = .ok out) :
    start.vend ≤ vres.vend ∧ IsMultiAt out start.str start.vbegin vres.vend := by
  cases res with
  | error w c => simp [ParseNode.failed] at hnf
  | terminal t v rn inn => simp [ParseNode.mergeWith] at h
  | lazyNode g2 ps2 p2 ov pv rn inn => simp [ParseNode.mergeWith] at h
  | wide cs v rn inn =>
      injection hv with hv
      subst hv
      simp only [ParseNode.mergeWith] at h
      split at h
      · simp at h
      · obtain ⟨cs1, _, h⟩ := bind_ok_elim h
        simp only [InputView.extend, InputView.getEnd] at h
        split at h
        · simp [Res.bind] at h
        · simp only [Res.bind_eq2, Res.bind, Res.ok.injEq] at h
          subst h
          exact ⟨by omega, Or.inl ⟨_, _, _, rfl⟩⟩
  | tall cs v rn inn =>
      injection hv with hv
      subst hv
      simp only [ParseNode.mergeWith] at h
      split at h
      · simp at h
      · obtain ⟨cs1, _, h⟩ := bind_ok_elim h
        simp only [InputView.extend, InputView.getEnd] at h
        split at h
        · simp [Res.bind] at h
        · simp only [Res.bind_eq2, Res.bind, Res.ok.injEq] at h
          subst h
          exact ⟨by omega, Or.inl ⟨_, _, _, rfl⟩⟩
  | short c v rn inn =>
      injection hv with hv
      subst hv
      simp only [ParseNode.mergeWith] at h
      split at h
      · simp at h
      · obtain ⟨cs1, _, h⟩ := bind_ok_elim h
        simp only [InputView.extend, InputView.getEnd] at h
        split at h
        · simp [Res.bind] at h
        · simp only [Res.bind_eq2, Res.bind, Res.ok.injEq] at h
          subst h
          exact ⟨by omega, Or.inl ⟨_, _, _, rfl⟩⟩

theorem setInlineName_ok {nm : String} {res out : ParseNode}
    (h : res.setInlineName nm = .ok out) (hnf : res.failed = false) :
    out.viewOf = res.viewOf ∧ out.failed = false := by
  cases res with
  | error w c => simp [ParseNode.failed] at hnf
  | terminal t v rn inn =>
      simp only [ParseNode.setInlineName] at h
      split at h
      · simp at h
      · injection h with h; subst h; exact ⟨rfl, rfl⟩
  | wide cs v rn inn =>
      simp only [ParseNode.setInlineName] at h
      split at h
      · simp at h
      · injection h with h; subst h; exact ⟨rfl, rfl⟩
  | tall cs v rn inn =>
      simp only [ParseNode.setInlineName] at h
      split at h
      · simp at h
      · injection h with h; subst h; exact ⟨rfl, rfl⟩
  | short c v rn inn =>
      simp only [ParseNode.setInlineName] at h
      split at h
      · simp at h
      · injection h with h; subst h; exact ⟨rfl, rfl⟩
  | lazyNode g2 ps2 p2 ov pv rn inn =>
      simp only [ParseNode.setInlineName] at h
      split at h
      · simp at h
      · injection h with h; subst h; exact ⟨rfl, rfl⟩

theorem group_viewOf (n : ParseNode) : n.group.viewOf = n.viewOf := by
  cases n <;> rfl

theorem group_failed (n : ParseNode) : n.group.failed = n.failed := by
  cases n <;> rfl

end Jiramark

namespace Jiramark

/-! #### Soundness of the matching engine w.r.t. the synthesized regex -/

/-- `ρ` is the grammar's cached-regex assignment: any rule it maps to a
regex exists and carries exactly that cached regex (as
`_buildRegExCaches` guarantees after the fixed point stabilizes). -/
def EnvSound (g : Grammar) (ρ : String → Option Regex) : Prop :=
  ∀ name r, ρ name = some r →
    ∃ rule, g.lookupRule name = some rule ∧ rule.cached = some r

/-- A parse function is regex-sound: on any expression whose synthesis
succeeds, a successful non-failing parse consumes a segment of the
input lying in the synthesized regex's language. -/
def SoundP (ρ : String → Option Regex) (P : ParseFn) : Prop :=
  ∀ e g ps v n r, EnvSound g ρ → e.regexOf ρ = some r → P e g ps v = .ok n →
    n.failed = false →
    ∃ b2 e2, n.viewOf = some ⟨v.str, b2, e2⟩ ∧ v.vend ≤ e2 ∧
      Matches r (seg v.str v.vend e2)

theorem seqLoopW_sound {ρ : String → Option Regex} {P : ParseFn}
    (HP : SoundP ρ P) {g : Grammar} (henv : EnvSound g ρ) (ps : List Expr) :
    ∀ (parts : List Expr) (rs : Regex) (acc n : ParseNode)
      (str : List Char) (b e0 : Nat),
      Expr.regexOfSeq ρ parts = some rs →
      IsMultiAt acc str b e0 →
      seqLoopW P g ps parts acc = .ok n → n.failed = false →
      ∃ b2 e2, n.viewOf = some ⟨str, b2, e2⟩ ∧ e0 ≤ e2 ∧
        Matches rs (seg str e0 e2) := by
  intro parts
  induction parts with
  | nil =>
      intro rs acc n str b e0 hre hacc h hnf
      simp only [Expr.regexOfSeq, Option.some.injEq] at hre
      subst hre
      simp only [seqLoopW] at h
      injection h with h
      subst h
      exact ⟨b, e0, hacc.viewOf, le_refl e0, by rw [seg_self]; exact Matches.eps⟩
  | cons p rest ih =>
      intro rs acc n str b e0 hre hacc h hnf
      simp only [Expr.regexOfSeq] at hre
      cases hrp : p.regexOf ρ with
      | none => rw [hrp] at hre; simp at hre
      | some rp =>
          rw [hrp] at hre
          cases hrs2 : Expr.regexOfSeq ρ rest with
          | none => rw [hrs2] at hre; simp at hre
          | some rs2 =>
              rw [hrs2] at hre
              simp at hre
              subst hre
              simp only [seqLoopW] at h
              obtain ⟨acc1, hacc1, hrec⟩ := bind_ok_elim h
              rw [parseAndConcatW_multi P g ps p hacc] at hacc1
              obtain ⟨res, hres, hpw⟩ := bind_ok_elim hacc1
              by_cases hrf : res.failed
              · obtain ⟨w2, c2, rfl⟩ := (failed_true_iff res).1 hrf
                simp only [ParseNode.prefixWith] at hpw
                injection hpw with hpw
                subst hpw
                rw [seqLoopW_error] at hrec
                injection hrec with hrec
                subst hrec
                simp [ParseNode.failed] at hnf
              · obtain ⟨b3, e3, hv3, he3, hm3⟩ :=
                  HP p g ps ⟨str, e0, e0⟩ res rp henv hrp hres (by simpa using hrf)
                obtain ⟨_, hmulti1⟩ := prefixWith_ok (by simpa using hrf) hv3 hpw
                obtain ⟨b2, e2, hv2, he2, hm2⟩ :=
                  ih rs2 acc1 n str b e3 hrs2 hmulti1 hrec hnf
                exact ⟨b2, e2, hv2, le_trans he3 he2, by
                  rw [seg_append str e0 e3 e2 he3 he2]
                  exact Matches.cat hm3 hm2⟩

theorem altLoopW_sound {ρ : String → Option Regex} {P : ParseFn}
    (HP : SoundP ρ P) {g : Grammar} (henv : EnvSound g ρ) (ps : List Expr) :
    ∀ (cs : List Expr) (R : Regex) (v : InputView) (n : ParseNode),
      Expr.regexOfAlt ρ cs = some R →
      altLoopW P g ps cs v = .ok n → n.failed = false →
      ∃ b2 e2, n.viewOf = some ⟨v.str, b2, e2⟩ ∧ v.vend ≤ e2 ∧
        Matches R (seg v.str v.vend e2) := by
  intro cs
  induction cs with
  | nil =>
      intro R v n hre h hnf
      simp only [altLoopW] at h
      injection h with h
      subst h
      simp [ParseNode.failed] at hnf
  | cons c rest ih =>
      intro R v n hre h hnf
      simp only [altLoopW] at h
      obtain ⟨r0, hr0, h⟩ := bind_ok_elim h
      cases rest with
      | nil =>
          simp only [Expr.regexOfAlt] at hre
          by_cases hf : r0.failed
          · rw [if_pos hf] at h
            simp only [altLoopW] at h
            injection h with h
            subst h
            simp [ParseNode.failed] at hnf
          · rw [if_neg hf] at h
            injection h with h
            subst h
            exact HP c g ps v _ R henv hre hr0 hnf
      | cons c2 cs2 =>
          simp only [Expr.regexOfAlt] at hre
          cases hrc : c.regexOf ρ with
          | none => rw [hrc] at hre; simp at hre
          | some Rc =>
              rw [hrc] at hre
              cases hrr : Expr.regexOfAlt ρ (c2 :: cs2) with
              | none => rw [hrr] at hre; simp at hre
              | some Rrest =>
                  rw [hrr] at hre
                  simp at hre
                  subst hre
                  by_cases hf : r0.failed
                  · rw [if_pos hf] at h
                    obtain ⟨b2, e2, hv2, he2, hm2⟩ := ih Rrest v n hrr h hnf
                    exact ⟨b2, e2, hv2, he2, Matches.altR hm2⟩
                  · rw [if_neg hf] at h
                    injection h with h
                    subst h
                    obtain ⟨b2, e2, hv2, he2, hm2⟩ :=
                      HP c g ps v _ Rc henv hrc hr0 hnf
                    exact ⟨b2, e2, hv2, he2, Matches.altL hm2⟩

theorem zomLoopW_sound {ρ : String → Option Regex} {P : ParseFn}
    (HP : SoundP ρ P) {g : Grammar} (henv : EnvSound g ρ) (ps : List Expr)
    (pred : Expr) (rp : Regex) (hrp : pred.regexOf ρ = some rp) :
    ∀ (c : Nat) (acc n : ParseNode) (str : List Char) (b e0 estart : Nat),
      IsMultiAt acc str b e0 →
      zomLoopW P g ps pred c acc = .ok n →
      estart ≤ e0 →
      Matches (.star rp) (seg str estart e0) →
      ∃ b2 e2, n.viewOf = some ⟨str, b2, e2⟩ ∧ e0 ≤ e2 ∧ n.failed = false ∧
        Matches (.star rp) (seg str estart e2) := by
  intro c
  induction c with
  | zero => intro acc n str b e0 estart _ h; simp [zomLoopW] at h
  | succ c ih =>
      intro acc n str b e0 estart hacc h hse hstar
      simp only [zomLoopW] at h
      split at h
      · injection h with h
        subst h
        exact ⟨b, e0, hacc.viewOf, le_refl e0, hacc.not_failed, hstar⟩
      · rw [parseAndMergeW_multi P g ps pred hacc] at h
        cases hres : P pred g ps ⟨str, e0, e0⟩ with
        | err m => rw [hres] at h; simp [Res.bind] at h
        | div => rw [hres] at h; simp [Res.bind] at h
        | ok res =>
            rw [hres] at h
            simp only [Res.bind_eq2, Res.bind] at h
            by_cases hrf : res.failed
            · obtain ⟨w2, c2, rfl⟩ := (failed_true_iff res).1 hrf
              simp only [ParseNode.mergeWith, ParseNode.failed, if_true] at h
              injection h with h
              subst h
              exact ⟨b, e0, hacc.viewOf, le_refl e0, hacc.not_failed, hstar⟩
            · obtain ⟨b3, e3, hv3, he3, hm3⟩ :=
                HP pred g ps ⟨str, e0, e0⟩ res rp henv hrp hres (by simpa using hrf)
              cases hmw : ParseNode.mergeWith ⟨str, b, e0⟩
                  (acc.childrenRaw.getD []) res with
              | err m => rw [hmw] at h; simp at h
              | div => rw [hmw] at h; simp at h
              | ok nxt =>
                  rw [hmw] at h
                  obtain ⟨_, hmulti1⟩ :=
                    mergeWith_ok_view (by simpa using hrf) hv3 hmw
                  dsimp only at h
                  rw [if_neg (by simp [hmulti1.not_failed])] at h
                  have hstar3 : Matches (.star rp) (seg str estart e3) := by
                    rw [seg_append str estart e0 e3 hse he3]
                    exact star_append hstar (star_single hm3)
                  obtain ⟨b2, e2, hv2, he2, hnf2, hm2⟩ :=
                    ih nxt n str b e3 estart hmulti1 h (le_trans hse he3) hstar3
                  exact ⟨b2, e2, hv2, le_trans he3 he2, hnf2, hm2⟩

end Jiramark

namespace Jiramark

/-- Regex soundness of the fueled parser: whenever an expression has a
synthesized regex and its full parse succeeds, the consumed segment of
the input lies in that regex's language. -/
theorem parse_sound (ρ : String → Option Regex) : ∀ f, SoundP ρ (parse f) := by
  intro f
  induction f with
  | zero => intro e g ps v n r _ _ hp _; simp [parse] at hp
  | succ f ih =>
      intro e g ps v n r henv hre hp hnf
      rw [show parse (f + 1) = parseStep (parse f) f from rfl] at hp
      cases e with
      | terminal s =>
          simp only [Expr.regexOf, Option.some.injEq] at hre
          subst hre
          simp only [parseStep] at hp
          split at hp
          · injection hp with hp
            subst hp
            refine ⟨v.vbegin, v.vend + s.length, rfl, by omega, ?_⟩
            rw [seg_range]
            rw [show (v.str.drop v.vend).take s.length = s from
              lstartsWith_take s v.rest (by assumption)]
            exact Matches.str s
          · injection hp with hp
            subst hp
            simp [ParseNode.failed] at hnf
      | range lo hi =>
          simp only [Expr.regexOf, Option.some.injEq] at hre
          subst hre
          simp only [parseStep] at hp
          split at hp
          · next ch t hrest =>
              split at hp
              · injection hp with hp
                subst hp
                refine ⟨v.vbegin, v.vend + 1, rfl, by omega, ?_⟩
                rw [seg_range]
                rw [show (v.str.drop v.vend).take 1 = [ch] by
                  rw [show v.str.drop v.vend = v.rest from rfl, hrest]; rfl]
                exact Matches.cls (by assumption)
              · injection hp with hp
                subst hp
                simp [ParseNode.failed] at hnf
          · injection hp with hp
            subst hp
            simp [ParseNode.failed] at hnf
      | regexPred c =>
          simp only [Expr.regexOf, Option.some.injEq] at hre
          subst hre
          simp only [parseStep] at hp
          split at hp
          · next ch t hrest =>
              split at hp
              · injection hp with hp
                subst hp
                refine ⟨v.vbegin, v.vend + 1, rfl, by omega, ?_⟩
                rw [seg_range]
                rw [show (v.str.drop v.vend).take 1 = [ch] by
                  rw [show v.str.drop v.vend = v.rest from rfl, hrest]; rfl]
                exact Matches.cls (by assumption)
              · injection hp with hp
                subst hp
                simp [ParseNode.failed] at hnf
          · injection hp with hp
            subst hp
            simp [ParseNode.failed] at hnf
      | seq parts =>
          simp only [Expr.regexOf] at hre
          simp only [parseStep] at hp
          exact seqLoopW_sound ih henv ps parts r (.wide [] v none none) n
            v.str v.vbegin v.vend hre (Or.inl ⟨[], none, none, rfl⟩) hp hnf
      | alt choices =>
          simp only [Expr.regexOf] at hre
          simp only [parseStep] at hp
          exact altLoopW_sound ih henv ps choices r v n hre hp hnf
      | namedSeq nm body =>
          simp only [Expr.regexOf] at hre
          simp only [parseStep] at hp
          obtain ⟨res, hres, hset⟩ := bind_ok_elim hp
          by_cases hrf : res.failed
          · obtain ⟨w2, c2, rfl⟩ := (failed_true_iff res).1 hrf
            simp only [ParseNode.setInlineName] at hset
            injection hset with hset
            subst hset
            simp [ParseNode.failed] at hnf
          · obtain ⟨b2, e2, hv2, he2, hm2⟩ :=
              ih body g ps v res r henv hre hres (by simpa using hrf)
            obtain ⟨hv, _⟩ := setInlineName_ok hset (by simpa using hrf)
            exact ⟨b2, e2, by rw [hv]; exact hv2, he2, hm2⟩
      | zeroOrMore p =>
          simp only [Expr.regexOf] at hre
          cases hrp : p.regexOf ρ with
          | none => rw [hrp] at hre; simp at hre
          | some rp =>
              rw [hrp] at hre
              simp at hre
              subst hre
              simp only [parseStep] at hp
              obtain ⟨r0, hr0, hp⟩ := bind_ok_elim hp
              injection hp with hp
              subst hp
              obtain ⟨b2, e2, hv2, he2, hnf2, hm2⟩ :=
                zomLoopW_sound ih henv ps p rp hrp f
                  (createEmptySlots p.width v) r0 v.str v.vbegin v.vend v.vend
                  (Or.inl ⟨_, none, none, rfl⟩) hr0 (le_refl v.vend)
                  (by rw [seg_self]; exact Matches.starNil)
              refine ⟨b2, e2, ?_, he2, hm2⟩
              rw [explain_nonfailed r0 hnf2, group_viewOf]
              exact hv2
      | oneOrMore p =>
          simp only [Expr.regexOf] at hre
          cases hrp : p.regexOf ρ with
          | none => rw [hrp] at hre; simp at hre
          | some rp =>
              rw [hrp] at hre
              simp at hre
              subst hre
              simp only [parseStep] at hp
              obtain ⟨first, hfirst, hp⟩ := bind_ok_elim hp
              obtain ⟨r0, hr0, hp⟩ := bind_ok_elim hp
              injection hp with hp
              subst hp
              rw [parseAndMergeW_multi (parse f) g ps p
                (Or.inl ⟨_, none, none, rfl⟩ :
                  IsMultiAt (createEmptySlots p.width v) v.str v.vbegin v.vend)]
                at hfirst
              obtain ⟨res, hres, hmw⟩ := bind_ok_elim hfirst
              by_cases hrf : res.failed
              · obtain ⟨w2, c2, rfl⟩ := (failed_true_iff res).1 hrf
                simp only [ParseNode.mergeWith] at hmw
                injection hmw with hmw
                subst hmw
                have hr0e : r0 = .error w2 c2 := by
                  cases f with
                  | zero => simp [zomLoopW] at hr0
                  | succ f2 =>
                      simp only [zomLoopW, ParseNode.hasMoreN, Bool.not_false,
                        if_true] at hr0
                      injection hr0 with hr0
                      exact hr0.symm
                subst hr0e
                simp [ParseNode.explain, ParseNode.group, ParseNode.failed] at hnf
              · obtain ⟨b3, e3, hv3, he3, hm3⟩ :=
                  ih p g ps ⟨v.str, v.vend, v.vend⟩ res rp henv hrp hres
                    (by simpa using hrf)
                obtain ⟨_, hmulti1⟩ :=
                  mergeWith_ok_view (by simpa using hrf) hv3 hmw
                obtain ⟨b2, e2, hv2, he2, hnf2, hm2⟩ :=
                  zomLoopW_sound ih henv ps p rp hrp f first r0 v.str v.vbegin
                    e3 e3 hmulti1 hr0 (le_refl e3)
                    (by rw [seg_self]; exact Matches.starNil)
                refine ⟨b2, e2, ?_, le_trans he3 he2, ?_⟩
                · rw [explain_nonfailed r0 hnf2, group_viewOf]
                  exact hv2
                · show Matches (.cat rp (.star rp)) (seg v.str v.vend e2)
                  rw [seg_append v.str v.vend e3 e2 he3 he2]
                  exact Matches.cat hm3 hm2
      | zeroOrOne p =>
          simp only [Expr.regexOf] at hre
          cases hrp : p.regexOf ρ with
          | none => rw [hrp] at hre; simp at hre
          | some rp =>
              rw [hrp] at hre
              simp at hre
              subst hre
              simp only [parseStep] at hp
              obtain ⟨nx, hnx, hp⟩ := bind_ok_elim hp
              injection hp with hp
              subst hp
              rw [parseAndMergeW_multi (parse f) g ps p
                (Or.inl ⟨_, none, none, rfl⟩ :
                  IsMultiAt (createEmptySlots p.width v) v.str v.vbegin v.vend)]
                at hnx
              obtain ⟨res, hres, hmw⟩ := bind_ok_elim hnx
              by_cases hrf : res.failed
              · obtain ⟨w2, c2, rfl⟩ := (failed_true_iff res).1 hrf
                simp only [ParseNode.mergeWith] at hmw
                injection hmw with hmw
                subst hmw
                simp only [ParseNode.group, ParseNode.failed, if_true]
                exact ⟨v.vbegin, v.vend, rfl, le_refl v.vend, by
                  rw [seg_self]
                  exact Matches.altR Matches.eps⟩
              · obtain ⟨b3, e3, hv3, he3, hm3⟩ :=
                  ih p g ps ⟨v.str, v.vend, v.vend⟩ res rp henv hrp hres
                    (by simpa using hrf)
                obtain ⟨_, hmulti1⟩ :=
                  mergeWith_ok_view (by simpa using hrf) hv3 hmw
                rw [if_neg (by rw [group_failed]; simp [hmulti1.not_failed])]
                refine ⟨v.vbegin, e3, ?_, he3, Matches.altL hm3⟩
                rw [group_viewOf]
                exact hmulti1.viewOf
      | negLookahead p => simp [Expr.regexOf] at hre
      | posLookahead p => simp [Expr.regexOf] at hre
      | formalsApply nm idx => simp [Expr.regexOf] at hre
      | ruleApply nm args =>
          simp only [Expr.regexOf] at hre
          obtain ⟨rule, hlook, hcached⟩ := henv nm r hre
          simp only [parseStep] at hp
          obtain ⟨subbed, hsub, hp⟩ := bind_ok_elim hp
          obtain ⟨rr, happ, hp⟩ := bind_ok_elim hp
          injection hp with hp
          subst hp
          rw [show Grammar.applyW (parse f) g nm subbed v
            = ruleParseW (parse f) g rule subbed v.next by
              simp [Grammar.applyW, hlook]] at happ
          simp only [ruleParseW, hcached] at happ
          split at happ
          · simp at happ
          · split at happ
            · injection happ with happ
              subst happ
              simp [ParseNode.explain, ParseNode.wrap, ParseNode.failed] at hnf
            · next L hL =>
                injection happ with happ
                subst happ
                refine ⟨v.vend, v.vend + L, rfl, by omega, ?_⟩
                have hrest : (v.next).rest = v.rest := rfl
                rw [hrest] at hL
                obtain ⟨_, hmL⟩ := jsExec_sound r v.rest L hL
                rw [seg_range]
                exact hmL

end Jiramark

namespace Jiramark

/-! ### C1: the faithful, token-level model of `getRegExStr`

`getRegExStr` builds pattern *strings* by concatenation:
`Terminal.getRegExStr` returns the escaped literal unparenthesized (so
each escaped character is one atom), `Range`/`RegExPred` contribute one
character-class atom, `Sequence`/`Alternative` wrap their parts in
`(?:`..`)` (one group atom), `RuleApply` splices the callee rule's
cached string unparenthesized, and the repetition/optional classes
append `*`/`+`/`?` to the string — so the quantifier binds only to the
*last atom* of the predicate's string (e.g. `'ab' + '*'` is `ab*`,
i.e. `a` then `b*`, not `(ab)*`).  The model below represents the
synthesized string as its sequence of quantified atoms. -/

/-- A quantifier suffix character: `*`, `+` or `?`. -/
inductive QKind where
  | qstar
  | qplus
  | qopt
deriving Repr, DecidableEq

mutual
/-- One regex atom of a synthesized pattern string: an escaped literal
character, a character class, or a `(?:..|..)` group (whose content is
an alternation of token sequences; `Sequence` produces a one-alternative
group). -/
inductive RFac where
  | fch (c : Char)
  | fcls (c : CharClass)
  | fgrp (alts : List (List RQuant))

/-- One factor of a synthesized pattern string: an atom, optionally
carrying a quantifier suffix; `lazyMark` records a `?` appended after a
quantifier (a JS lazy quantifier, same language). -/
inductive RQuant where
  | bare (f : RFac)
  | quant (f : RFac) (q : QKind) (lazyMark : Bool)
end

/-- Appending a quantifier character to a pattern string, as
`rs + '*'` / `'+'` / `'?'` do: it attaches to the string's last atom.
Appending to the empty string, appending `*`/`+` to an already
quantified atom, or appending anything to a lazy quantifier, yields a
pattern `new RegExp` rejects (`a**` etc.); the `Grammar` constructor
would throw while building the caches, so no rule ends the fixed point
with such a cache — modelled as `none`.  A `?` after a greedy
quantifier forms the JS lazy quantifier. -/
def appendQuant (q : QKind) (toks : List RQuant) : Option (List RQuant) :=
  match toks.getLast? with
  | none => none
  | some (.bare f) => some (toks.dropLast ++ [.quant f q false])
  | some (.quant f q0 false) =>
      match q with
      | .qopt => some (toks.dropLast ++ [.quant f q0 true])
      | _ => none
  | some (.quant _ _ true) => none

/-- Concatenation of the parts' strings (`join('')`). -/
def joinAll : List (List RQuant) → List RQuant
  | [] => []
  | l :: ls => l ++ joinAll ls

mutual
/-- The faithful model of `getRegExStr`: the token sequence of the
synthesized pattern string.  `ρT` assigns to each rule name the token
sequence of its cached string (`RuleApply.getRegExStr` splices it in
unparenthesized); lookaheads and formal parameters yield `null` (the
base method); an empty alternation synthesizes `(?:)`, a group with one
empty alternative. -/
def Expr.synth (ρT : String → Option (List RQuant)) : Expr → Option (List RQuant)
  | .terminal s => some (s.map fun c => RQuant.bare (RFac.fch c))
  | .range lo hi => some [RQuant.bare (RFac.fcls (.crange lo hi))]
  | .regexPred c => some [RQuant.bare (RFac.fcls c)]
  | .seq parts => do
      let ls ← Expr.synthList ρT parts
      some [RQuant.bare (RFac.fgrp [joinAll ls])]
  | .alt choices => do
      let ls ← Expr.synthList ρT choices
      some [RQuant.bare (RFac.fgrp (match ls with | [] => [[]] | _ => ls))]
  | .namedSeq _ b => b.synth ρT
  | .zeroOrMore p => do
      let ts ← p.synth ρT
      appendQuant .qstar ts
  | .oneOrMore p => do
      let ts ← p.synth ρT
      appendQuant .qplus ts
  | .zeroOrOne p => do
      let ts ← p.synth ρT
      appendQuant .qopt ts
  | .negLookahead _ => none
  | .posLookahead _ => none
  | .formalsApply _ _ => none
  | .ruleApply name _ => ρT name

def Expr.synthList (ρT : String → Option (List RQuant)) :
    List Expr → Option (List (List RQuant))
  | [] => some []
  | e :: es => do
      let t ← e.synth ρT
      let ts ← Expr.synthList ρT es
      some (t :: ts)
end

mutual
/-- The language of one atom (what the compiled `RegExp` recognizes for
it). -/
def RFac.den : RFac → Regex
  | .fch c => .str [c]
  | .fcls c => .cls c
  | .fgrp alts => RFac.denAlts alts

def RFac.denAlts : List (List RQuant) → Regex
  | [] => .fail
  | [a] => RQuant.denList a
  | a :: b :: rest => .alt (RQuant.denList a) (RFac.denAlts (b :: rest))

/-- The language of one quantified atom.  A lazy quantifier recognizes
the same language as its greedy counterpart (laziness only changes
which match is preferred), so the mark is ignored here. -/
def RQuant.den : RQuant → Regex
  | .bare f => f.den
  | .quant f .qstar _ => .star f.den
  | .quant f .qplus _ => .cat f.den (.star f.den)
  | .quant f .qopt _ => .alt f.den .eps

/-- The language of a synthesized pattern string: the concatenation of
its factors. -/
def RQuant.denList : List RQuant → Regex
  | [] => .eps
  | t :: ts => .cat t.den (RQuant.denList ts)
end

/-- The synthesis result is a single unquantified atom — the condition
under which an appended quantifier binds to the whole synthesized
sub-pattern. -/
def isSingleBare : Option (List RQuant) → Bool
  | none => false
  | some [] => false
  | some (RQuant.bare _ :: []) => true
  | some (RQuant.quant _ _ _ :: []) => false
  | some (_ :: _ :: _) => false

mutual
/-- Every repetition or optional in the expression quantifies a
sub-expression whose synthesized string is a single atom (a character
class, a one-character literal, a `(?:..)` group, or a rule reference
whose cached string is such an atom) — so every quantifier binds to the
whole sub-pattern. -/
def Expr.wellQuant (ρT : String → Option (List RQuant)) : Expr → Bool
  | .terminal _ => true
  | .range _ _ => true
  | .regexPred _ => true
  | .seq parts => Expr.wellQuantList ρT parts
  | .alt choices => Expr.wellQuantList ρT choices
  | .namedSeq _ b => b.wellQuant ρT
  | .zeroOrMore p => p.wellQuant ρT && isSingleBare (p.synth ρT)
  | .oneOrMore p => p.wellQuant ρT && isSingleBare (p.synth ρT)
  | .zeroOrOne p => p.wellQuant ρT && isSingleBare (p.synth ρT)
  | .negLookahead _ => true
  | .posLookahead _ => true
  | .formalsApply _ _ => true
  | .ruleApply _ _ => true

def Expr.wellQuantList (ρT : String → Option (List RQuant)) : List Expr → Bool
  | [] => true
  | e :: es => e.wellQuant ρT && Expr.wellQuantList ρT es
end

end Jiramark

namespace Jiramark

/-! ### Bridging `getRegExStr`'s token strings to the grouped IR

`Expr.regexOf` groups every quantified sub-expression, while the
source's string concatenation does not.  On the *well-quantified*
fragment — where every quantified sub-expression's synthesized string
is a single unquantified atom — the two describe the same language;
`synth_bridge` below proves the direction the fast-path soundness
claim needs. -/

/-- The regex environment induced by a token environment: each rule's
cached compiled regex is the compilation of its cached string. -/
def rhoDen (ρT : String → Option (List RQuant)) : String → Option Regex :=
  fun nm => (ρT nm).map RQuant.denList

theorem matches_eps_inv {w : List Char} (h : Matches .eps w) : w = [] := by
  cases h; rfl

theorem matches_cat_inv {a b : Regex} {w : List Char}
    (h : Matches (.cat a b) w) :
    ∃ p q, w = p ++ q ∧ Matches a p ∧ Matches b q := by
  cases h with
  | cat ha hb => exact ⟨_, _, rfl, ha, hb⟩

theorem matches_alt_inv {a b : Regex} {w : List Char}
    (h : Matches (.alt a b) w) : Matches a w ∨ Matches b w := by
  cases h with
  | altL h => exact .inl h
  | altR h => exact .inr h

theorem matches_catEps_intro {r : Regex} {w : List Char}
    (h : Matches r w) : Matches (.cat r .eps) w := by
  have := Matches.cat h Matches.eps
  simpa using this

theorem matches_catEps_elim {r : Regex} {w : List Char}
    (h : Matches (.cat r .eps) w) : Matches r w := by
  obtain ⟨p, q, hw, hp, hq⟩ := matches_cat_inv h
  have hq0 : q = [] := matches_eps_inv hq
  subst hq0
  simpa [hw] using hp

/-- The language of a star only grows when the body's language grows. -/
theorem star_mono {a b : Regex} (hab : ∀ u, Matches a u → Matches b u) :
    ∀ {w : List Char}, Matches (.star a) w → Matches (.star b) w := by
  intro w hw
  generalize hsr : Regex.star a = sr at hw
  revert hsr
  induction hw with
  | eps => intro hsr; simp at hsr
  | cls h => intro hsr; simp at hsr
  | str s => intro hsr; simp at hsr
  | cat ha hb iha ihb => intro hsr; simp at hsr
  | altL h ih => intro hsr; simp at hsr
  | altR h ih => intro hsr; simp at hsr
  | starNil => intro hsr; exact Matches.starNil
  | starCons h1 h2 ih1 ih2 =>
      intro hsr
      injection hsr with h
      subst h
      exact Matches.starCons (hab _ h1) (ih2 rfl)

/-- Concatenating two pattern strings concatenates their languages. -/
theorem denList_append : ∀ (xs ys : List RQuant) (p q : List Char),
    Matches (RQuant.denList xs) p → Matches (RQuant.denList ys) q →
    Matches (RQuant.denList (xs ++ ys)) (p ++ q) := by
  intro xs
  induction xs with
  | nil =>
      intro ys p q hp hq
      have hp0 : p = [] := matches_eps_inv (by simpa [RQuant.denList] using hp)
      subst hp0
      simpa using hq
  | cons x xs ih =>
      intro ys p q hp hq
      rw [RQuant.denList] at hp
      obtain ⟨p1, p2, hpe, h1, h2⟩ := matches_cat_inv hp
      subst hpe
      have := Matches.cat (a := x.den) (b := RQuant.denList (xs ++ ys))
        h1 (ih ys p2 q h2 hq)
      rw [List.cons_append, RQuant.denList]
      simpa [List.append_assoc] using this

/-- A literal's escaped string of one-character atoms recognizes
exactly the literal. -/
theorem matches_charToks : ∀ (s : List Char),
    Matches (RQuant.denList (s.map fun c => RQuant.bare (RFac.fch c))) s := by
  intro s
  induction s with
  | nil => exact Matches.eps
  | cons c cs ih =>
      have := Matches.cat (a := Regex.str [c])
        (b := RQuant.denList (cs.map fun c => RQuant.bare (RFac.fch c)))
        (Matches.str [c]) ih
      simpa [RQuant.denList, RQuant.den, RFac.den] using this

theorem isSingleBare_eq : ∀ (o : Option (List RQuant)),
    isSingleBare o = true → ∃ f, o = some [RQuant.bare f] := by
  intro o h
  rcases o with _ | l
  · simp [isSingleBare] at h
  · rcases l with _ | ⟨x, l⟩
    · simp [isSingleBare] at h
    · rcases l with _ | ⟨y, l⟩
      · rcases x with f | ⟨f, q, m⟩
        · exact ⟨f, rfl⟩
        · simp [isSingleBare] at h
      · simp [isSingleBare] at h

end Jiramark

namespace Jiramark

/-- The bridge property for one expression: on the well-quantified
fragment, whenever the token-level synthesis succeeds, the grouped IR
also synthesizes, and every word of the IR's language lies in the
language of the compiled token string. -/
def BridgeOK (ρT : String → Option (List RQuant)) (e : Expr) : Prop :=
  ∀ toks, e.wellQuant ρT = true → e.synth ρT = some toks →
    ∃ r, e.regexOf (rhoDen ρT) = some r ∧
      ∀ w, Matches r w → Matches (RQuant.denList toks) w

theorem seqBridge (ρT : String → Option (List RQuant)) :
    ∀ (parts : List Expr) (ls : List (List RQuant)),
    (∀ e ∈ parts, BridgeOK ρT e) →
    Expr.wellQuantList ρT parts = true →
    Expr.synthList ρT parts = some ls →
    ∃ r, Expr.regexOfSeq (rhoDen ρT) parts = some r ∧
      ∀ w, Matches r w → Matches (RQuant.denList (joinAll ls)) w := by
  intro parts
  induction parts with
  | nil =>
      intro ls _ _ hs
      simp only [Expr.synthList] at hs
      injection hs with hs
      subst hs
      refine ⟨.eps, rfl, ?_⟩
      intro w hw
      have hw0 := matches_eps_inv hw
      subst hw0
      exact Matches.eps
  | cons p ps ih =>
      intro ls hmem hwq hs
      simp only [Expr.wellQuantList, Bool.and_eq_true] at hwq
      simp only [Expr.synthList] at hs
      cases hp : p.synth ρT with
      | none => rw [hp] at hs; simp at hs
      | some t =>
          rw [hp] at hs
          cases hts : Expr.synthList ρT ps with
          | none => rw [hts] at hs; simp at hs
          | some ts =>
              rw [hts] at hs
              have hs2 : some (t :: ts) = some ls := hs
              injection hs2 with hs2
              subst hs2
              obtain ⟨rp, hrp, himp⟩ :=
                hmem p (List.mem_cons_self p ps) t hwq.1 hp
              obtain ⟨rs, hrs, himps⟩ :=
                ih ts (fun e he => hmem e (List.mem_cons_of_mem p he))
                  hwq.2 hts
              refine ⟨.cat rp rs, by simp [Expr.regexOfSeq, hrp, hrs], ?_⟩
              intro w hw
              obtain ⟨w1, w2, hwe, h1, h2⟩ := matches_cat_inv hw
              subst hwe
              exact denList_append t (joinAll ts) w1 w2 (himp w1 h1)
                (himps w2 h2)

theorem altBridge (ρT : String → Option (List RQuant)) :
    ∀ (choices : List Expr) (ls : List (List RQuant)),
    (∀ e ∈ choices, BridgeOK ρT e) →
    Expr.wellQuantList ρT choices = true →
    Expr.synthList ρT choices = some ls →
    choices ≠ [] →
    ∃ r, Expr.regexOfAlt (rhoDen ρT) choices = some r ∧
      ∀ w, Matches r w → Matches (RFac.denAlts ls) w := by
  intro choices
  induction choices with
  | nil => intro ls _ _ _ hne; exact absurd rfl hne
  | cons c cs ih =>
      intro ls hmem hwq hs _
      simp only [Expr.wellQuantList, Bool.and_eq_true] at hwq
      simp only [Expr.synthList] at hs
      cases hc : c.synth ρT with
      | none => rw [hc] at hs; simp at hs
      | some t =>
          rw [hc] at hs
          cases hts : Expr.synthList ρT cs with
          | none => rw [hts] at hs; simp at hs
          | some ts =>
              rw [hts] at hs
              have hs2 : some (t :: ts) = some ls := hs
              injection hs2 with hs2
              subst hs2
              obtain ⟨rc, hrc, himp⟩ :=
                hmem c (List.mem_cons_self c cs) t hwq.1 hc
              cases cs with
              | nil =>
                  simp only [Expr.synthList] at hts
                  injection hts with hts
                  subst hts
                  exact ⟨rc, by simpa [Expr.regexOfAlt] using hrc, himp⟩
              | cons c2 cs2 =>
                  obtain ⟨rr, hrr, himpr⟩ :=
                    ih ts (fun e he => hmem e (List.mem_cons_of_mem c he))
                      hwq.2 hts (by simp)
                  have hts2 : ∃ t2 ts2, ts = t2 :: ts2 := by
                    simp only [Expr.synthList] at hts
                    cases h2 : c2.synth ρT with
                    | none => rw [h2] at hts; simp at hts
                    | some u =>
                        rw [h2] at hts
                        cases h3 : Expr.synthList ρT cs2 with
                        | none => rw [h3] at hts; simp at hts
                        | some us =>
                            rw [h3] at hts
                            have h4 : some (u :: us) = some ts := hts
                            injection h4 with h4
                            exact ⟨u, us, h4.symm⟩
                  obtain ⟨t2, ts2, hts3⟩ := hts2
                  subst hts3
                  refine ⟨.alt rc rr,
                    by simp [Expr.regexOfAlt, hrc, hrr], ?_⟩
                  intro w hw
                  rcases matches_alt_inv hw with h | h
                  · exact Matches.altL (himp w h)
                  · exact Matches.altR (himpr w h)

theorem synth_bridge_aux (ρT : String → Option (List RQuant)) :
    ∀ N, ∀ e : Expr, sizeOf e ≤ N → BridgeOK ρT e := by
  intro N
  induction N with
  | zero =>
      intro e hsz
      exfalso
      cases e <;> simp at hsz
  | succ n ih =>
      intro e hsz toks hwq hsynth
      cases e with
      | terminal s =>
          simp only [Expr.synth] at hsynth
          injection hsynth with h
          subst h
          refine ⟨.str s, rfl, ?_⟩
          intro w hw
          cases hw with
          | str => exact matches_charToks s
      | range lo hi =>
          simp only [Expr.synth] at hsynth
          injection hsynth with h
          subst h
          exact ⟨.cls (.crange lo hi), rfl,
            fun w hw => matches_catEps_intro hw⟩
      | regexPred c =>
          simp only [Expr.synth] at hsynth
          injection hsynth with h
          subst h
          exact ⟨.cls c, rfl, fun w hw => matches_catEps_intro hw⟩
      | seq parts =>
          simp only [Expr.synth] at hsynth
          cases hls : Expr.synthList ρT parts with
          | none => rw [hls] at hsynth; simp at hsynth
          | some ls =>
              rw [hls] at hsynth
              have h2 : some [RQuant.bare (RFac.fgrp [joinAll ls])]
                  = some toks := hsynth
              injection h2 with h2
              subst h2
              have hwq' : Expr.wellQuantList ρT parts = true := by
                simpa [Expr.wellQuant] using hwq
              have hmem : ∀ e' ∈ parts, BridgeOK ρT e' := by
                intro e' he'
                apply ih
                have h1 := List.sizeOf_lt_of_mem he'
                simp at hsz
                omega
              obtain ⟨r, hr, himp⟩ := seqBridge ρT parts ls hmem hwq' hls
              refine ⟨r, by simpa [Expr.regexOf] using hr, ?_⟩
              intro w hw
              exact matches_catEps_intro (himp w hw)
      | alt choices =>
          simp only [Expr.synth] at hsynth
          cases hls : Expr.synthList ρT choices with
          | none => rw [hls] at hsynth; simp at hsynth
          | some ls =>
              rw [hls] at hsynth
              have hwq' : Expr.wellQuantList ρT choices = true := by
                simpa [Expr.wellQuant] using hwq
              cases choices with
              | nil =>
                  simp only [Expr.synthList] at hls
                  injection hls with hls
                  subst hls
                  have h2 : some [RQuant.bare (RFac.fgrp [[]])]
                      = some toks := hsynth
                  injection h2 with h2
                  subst h2
                  refine ⟨.eps, rfl, ?_⟩
                  intro w hw
                  have hw0 := matches_eps_inv hw
                  subst hw0
                  exact matches_catEps_intro Matches.eps
              | cons c ccs =>
                  have hls2 : ∃ t ts, ls = t :: ts := by
                    simp only [Expr.synthList] at hls
                    cases h2 : c.synth ρT with
                    | none => rw [h2] at hls; simp at hls
                    | some u =>
                        rw [h2] at hls
                        cases h3 : Expr.synthList ρT ccs with
                        | none => rw [h3] at hls; simp at hls
                        | some us =>
                            rw [h3] at hls
                            have h4 : some (u :: us) = some ls := hls
                            injection h4 with h4
                            exact ⟨u, us, h4.symm⟩
                  obtain ⟨t, ts, hls3⟩ := hls2
                  subst hls3
                  have h2 : some [RQuant.bare (RFac.fgrp (t :: ts))]
                      = some toks := hsynth
                  injection h2 with h2
                  subst h2
                  have hmem : ∀ e' ∈ c :: ccs, BridgeOK ρT e' := by
                    intro e' he'
                    apply ih
                    have h1 := List.sizeOf_lt_of_mem he'
                    simp at h1 hsz
                    omega
                  obtain ⟨r, hr, himp⟩ :=
                    altBridge ρT (c :: ccs) (t :: ts) hmem hwq' hls
                      (by simp)
                  refine ⟨r, by simpa [Expr.regexOf] using hr, ?_⟩
                  intro w hw
                  exact matches_catEps_intro (himp w hw)
      | namedSeq name b =>
          simp only [Expr.synth] at hsynth
          have hwq' : b.wellQuant ρT = true := by
            simpa [Expr.wellQuant] using hwq
          have hb : BridgeOK ρT b := by
            apply ih
            simp at hsz
            omega
          obtain ⟨r, hr, himp⟩ := hb toks hwq' hsynth
          exact ⟨r, by simpa [Expr.regexOf] using hr, himp⟩
      | zeroOrMore p =>
          simp only [Expr.wellQuant, Bool.and_eq_true] at hwq
          obtain ⟨f0, hf⟩ := isSingleBare_eq _ hwq.2
          simp only [Expr.synth] at hsynth
          rw [hf] at hsynth
          have h2 : some [RQuant.quant f0 QKind.qstar false]
              = some toks := hsynth
          injection h2 with h2
          subst h2
          have hb : BridgeOK ρT p := by
            apply ih
            simp at hsz
            omega
          obtain ⟨rp, hrp, himp⟩ := hb [RQuant.bare f0] hwq.1 hf
          have himp2 : ∀ u, Matches rp u → Matches (RFac.den f0) u :=
            fun u hu => matches_catEps_elim (himp u hu)
          refine ⟨.star rp, by simp [Expr.regexOf, hrp], ?_⟩
          intro w hw
          exact matches_catEps_intro (star_mono himp2 hw)
      | oneOrMore p =>
          simp only [Expr.wellQuant, Bool.and_eq_true] at hwq
          obtain ⟨f0, hf⟩ := isSingleBare_eq _ hwq.2
          simp only [Expr.synth] at hsynth
          rw [hf] at hsynth
          have h2 : some [RQuant.quant f0 QKind.qplus false]
              = some toks := hsynth
          injection h2 with h2
          subst h2
          have hb : BridgeOK ρT p := by
            apply ih
            simp at hsz
            omega
          obtain ⟨rp, hrp, himp⟩ := hb [RQuant.bare f0] hwq.1 hf
          have himp2 : ∀ u, Matches rp u → Matches (RFac.den f0) u :=
            fun u hu => matches_catEps_elim (himp u hu)
          refine ⟨.plus rp, by simp [Expr.regexOf, hrp], ?_⟩
          intro w hw
          simp only [Regex.plus] at hw
          obtain ⟨w1, w2, hwe, h1, hst⟩ := matches_cat_inv hw
          subst hwe
          exact matches_catEps_intro
            (Matches.cat (himp2 w1 h1) (star_mono himp2 hst))
      | zeroOrOne p =>
          simp only [Expr.wellQuant, Bool.and_eq_true] at hwq
          obtain ⟨f0, hf⟩ := isSingleBare_eq _ hwq.2
          simp only [Expr.synth] at hsynth
          rw [hf] at hsynth
          have h2 : some [RQuant.quant f0 QKind.qopt false]
              = some toks := hsynth
          injection h2 with h2
          subst h2
          have hb : BridgeOK ρT p := by
            apply ih
            simp at hsz
            omega
          obtain ⟨rp, hrp, himp⟩ := hb [RQuant.bare f0] hwq.1 hf
          have himp2 : ∀ u, Matches rp u → Matches (RFac.den f0) u :=
            fun u hu => matches_catEps_elim (himp u hu)
          refine ⟨.opt rp, by simp [Expr.regexOf, hrp], ?_⟩
          intro w hw
          simp only [Regex.opt] at hw
          rcases matches_alt_inv hw with h | h
          · exact matches_catEps_intro (Matches.altL (himp2 w h))
          · exact matches_catEps_intro (Matches.altR h)
      | negLookahead p => simp [Expr.synth] at hsynth
      | posLookahead p => simp [Expr.synth] at hsynth
      | formalsApply name idx => simp [Expr.synth] at hsynth
      | ruleApply name args =>
          simp only [Expr.synth] at hsynth
          refine ⟨RQuant.denList toks, ?_, fun w hw => hw⟩
          simp [Expr.regexOf, rhoDen, hsynth]

/-- On the well-quantified fragment, every word of the grouped IR's
language lies in the language of the compiled token string — the
direction fast-path soundness needs. -/
theorem synth_bridge (ρT : String → Option (List RQuant)) (e : Expr) :
    BridgeOK ρT e :=
  synth_bridge_aux ρT (sizeOf e) e le_rfl

end Jiramark

namespace Jiramark

/-! ### C1: the regex fast path versus the full body parse -/

/-- Whether a (fueled) body parse fails: `some true` is a returned
Failure node, `some false` a successful node, `none` an exception or
exhausted fuel. -/
def parseFailed (f : Nat) (e : Expr) (g : Grammar) (v : InputView) :
    Option Bool :=
  match parse f e g [] v with
  | .ok n => some n.failed
  | _ => none

/-- Scenario A body: `"a"* "a"` (well-quantified; the synthesized
string is `(?:a*a)`). -/
def ceBody : Expr := .seq [.zeroOrMore (.terminal ['a']), .terminal ['a']]

def ceToks : List RQuant :=
  [.bare (.fgrp [[.quant (.fch 'a') .qstar false, .bare (.fch 'a')]])]

def ceRegex : Regex := RQuant.denList ceToks

def ceRule : Rule := ⟨"top", [], "the letter a", ceBody, some ceRegex⟩

def ceG : Grammar := ⟨"ce", [("top", ceRule)], "top"⟩

/-- Scenario B body: `"ab"*` (not well-quantified; the synthesized
string is `ab*`, where the star binds only the `b`). -/
def ce2Body : Expr := .zeroOrMore (.terminal ['a', 'b'])

def ce2Toks : List RQuant :=
  [.bare (.fch 'a'), .quant (.fch 'b') .qstar false]

def ce2Regex : Regex := RQuant.denList ce2Toks

def ce2Rule : Rule := ⟨"top2", [], "ab repeated", ce2Body, some ce2Regex⟩

def ce2G : Grammar := ⟨"ce2", [("top2", ce2Rule)], "top2"⟩

/-- C1 counterexample: the claimed accept/reject equivalence between
the cached-regex fast path and the full body parse fails in both
directions.  Scenario A (`"a"* "a"` on input `a`): the synthesized
regex backtracks, so the fast path matches and returns a deferred
node, but the full parse fails — PEG repetition is possessive.
Scenario B (`"ab"*` on input `xy`): the quantifier of the synthesized
string `ab*` binds only the last atom of the unparenthesized literal,
the compiled regex `a(b*)` rejects `xy`, and the fast path reports
`expected to find top2`, but the full parse succeeds consuming
nothing. -/
theorem c1_counterexample :
    ceBody.synth (fun _ => none) = some ceToks
    ∧ ceBody.wellQuant (fun _ => none) = true
    ∧ jsExec ceRegex ['a'] = some 1
    ∧ ruleParseW (parse 10) ceG ceRule [] ⟨['a'], 0, 0⟩
        = .ok (.lazyNode ceG [] ceBody ⟨['a'], 0, 0⟩ ⟨['a'], 0, 1⟩
            (some "top") none)
    ∧ parseFailed 10 ceBody ceG ⟨['a'], 0, 0⟩ = some true
    ∧ ce2Body.synth (fun _ => none) = some ce2Toks
    ∧ jsExec ce2Regex ['x', 'y'] = none
    ∧ ruleParseW (parse 10) ce2G ce2Rule [] ⟨['x', 'y'], 0, 0⟩
        = .ok (.error ("expected to find top2") none)
    ∧ parseFailed 10 ce2Body ce2G ⟨['x', 'y'], 0, 0⟩ = some false :=
  ⟨rfl, rfl, rfl, rfl, rfl, rfl, rfl, rfl, rfl⟩

/-- **C1** (amended): the surviving direction of the equivalence, on
the well-quantified fragment.  For a rule whose body is
well-quantified under the token environment, whose body's synthesized
token string is `toks`, and whose cache is the compilation of `toks`:
whenever the full body parse succeeds (without a Failure node), the
consumed segment of the input lies in the cached regex's language —
so the anchored cached regex accepts wherever the full parse does,
and the fast path can only reject inputs whose full parse also
rejects or diverges. -/
theorem c1_regex_soundness
    (ρT : String → Option (List RQuant)) (g : Grammar) (rule : Rule)
    (toks : List RQuant) (f : Nat) (ps : List Expr) (v : InputView)
    (n : ParseNode)
    (henv : EnvSound g (rhoDen ρT))
    (hwq : rule.body.wellQuant ρT = true)
    (hsynth : rule.body.synth ρT = some toks)
    (_hcached : rule.cached = some (RQuant.denList toks))
    (hp : parse f rule.body g ps v = .ok n)
    (hnf : n.failed = false) :
    ∃ b2 e2, n.viewOf = some ⟨v.str, b2, e2⟩ ∧ v.vend ≤ e2 ∧
      Matches (RQuant.denList toks) (seg v.str v.vend e2) ∧
      v.rest = seg v.str v.vend e2 ++ v.str.drop e2 := by
  obtain ⟨r, hr, himp⟩ := synth_bridge ρT rule.body toks hwq hsynth
  obtain ⟨b2, e2, hview, hle, hm⟩ :=
    parse_sound (rhoDen ρT) f rule.body g ps v n r henv hr hp hnf
  refine ⟨b2, e2, hview, hle, himp _ hm, ?_⟩
  rw [InputView.rest, seg]
  have hd : v.str.drop e2 = (v.str.drop v.vend).drop (e2 - v.vend) := by
    rw [List.drop_drop]
    congr 1
    omega
  rw [hd, List.take_append_drop]

/-- The rule `w1top = "a"` with the faithfully cached regex `a`. -/
def w1Body : Expr := .terminal ['a']

def w1Toks : List RQuant := [.bare (.fch 'a')]

def w1Rule : Rule :=
  ⟨"w1top", [], "the letter a", w1Body, some (RQuant.denList w1Toks)⟩

def w1G : Grammar := ⟨"w1", [("w1top", w1Rule)], "w1top"⟩

def w1V : InputView := ⟨['a'], 0, 0⟩

def w1N : ParseNode :=
  (ParseNode.terminal ['a'] ⟨['a'], 0, 1⟩ none none).wrap

/-- C1 witness: the soundness theorem applied to the rule
`w1top = "a"` on input `a`. -/
theorem c1_witness :
    ∃ b2 e2, w1N.viewOf = some ⟨w1V.str, b2, e2⟩ ∧ w1V.vend ≤ e2 ∧
      Matches (RQuant.denList w1Toks) (seg w1V.str w1V.vend e2) ∧
      w1V.rest = seg w1V.str w1V.vend e2 ++ w1V.str.drop e2 :=
  c1_regex_soundness (fun _ => none) w1G w1Rule w1Toks 2 [] w1V w1N
    (fun _ _ h => nomatch h) rfl rfl rfl rfl rfl

end Jiramark
